import Mathlib

/-!
Verification of the Go package slicex.

Shallow embedding of `slicex/slice.go` and proofs about it.

* A Go slice value is read as the `List` of its elements at the indices below
  its length; a nil slice and an empty slice both read as `[]`.
* A Go `map[E]struct{}` that is only written with `m[v] = struct{}{}` and read
  with `_, found := m[v]` is the list of the keys stored so far (`KeySet`).
* Operations that store into the backing array of an argument (`Delete`,
  `Union`, `EqualIgnoreOrder`) are modelled over an explicit `Store` with slice
  headers (`SliceHdr`), further down.
* Every other operation is also written over the store, in the namespace
  `Stored`, with explicit state passing; these versions are proved to compute
  the functions on element lists and to leave their argument slices unchanged.
-/

namespace slicex

/-! ## Membership sets (`map[E]struct{}`) -/

/-- The keys present in a Go `map[E]struct{}`. -/
abbrev KeySet (E : Type) := List E

/-- The map literal `map[E]struct{}{}` and `make(map[E]struct{}, n)`. -/
def KeySet.empty {E : Type} : KeySet E := []

/-- The lookup `_, found := m[v]`. -/
def KeySet.found {E : Type} [DecidableEq E] (m : KeySet E) (v : E) : Bool :=
  decide (v ∈ m)

/-- The assignment `m[v] = struct{}{}`. -/
def KeySet.store {E : Type} [DecidableEq E] (m : KeySet E) (v : E) : KeySet E :=
  if v ∈ m then m else v :: m

/-! ## Distinct, Subtract, Intersect -/

/-- The loop of `Distinct`, `for _, v := range s`, with the map `m` and the
result `res` as loop state. -/
def distinctLoop {E : Type} [DecidableEq E] : List E → KeySet E → List E → List E
  | [], _, res => res
  | v :: rest, m, res =>
    if !(m.found v) then distinctLoop rest (m.store v) (res ++ [v])
    else distinctLoop rest m res

/-- The function `Distinct`: `var res S`, then under `len(s) > 0` the map literal and the
loop, then `return res`. -/
def Distinct {E : Type} [DecidableEq E] (s : List E) : List E :=
  if s.length > 0 then distinctLoop s KeySet.empty [] else []

/-- The first loop of `Subtract` and of `Intersect`:
`for _, v := range s2 { mp[v] = struct{}{} }`. -/
def fillLoop {E : Type} [DecidableEq E] : List E → KeySet E → KeySet E
  | [], mp => mp
  | v :: rest, mp => fillLoop rest (mp.store v)

/-- The second loop of `Subtract`: keep `v` when it is not found in `mp`. -/
def subtractLoop {E : Type} [DecidableEq E] (mp : KeySet E) : List E → List E → List E
  | [], s => s
  | v :: rest, s =>
    if !(mp.found v) then subtractLoop mp rest (s ++ [v]) else subtractLoop mp rest s

/-- The function `Subtract`: the elements of `s1` that are not in `s2`. -/
def Subtract {E : Type} [DecidableEq E] (s1 s2 : List E) : List E :=
  if s1.length > 0 then subtractLoop (fillLoop s2 KeySet.empty) s1 [] else []

/-- The second loop of `Intersect`: keep `v` when it is found in `mp`. -/
def intersectLoop {E : Type} [DecidableEq E] (mp : KeySet E) : List E → List E → List E
  | [], s => s
  | v :: rest, s =>
    if mp.found v then intersectLoop mp rest (s ++ [v]) else intersectLoop mp rest s

/-- The function `Intersect`: the two loops under `len(s1) > 0 && len(s2) > 0`, then
`Distinct(s)`. -/
def Intersect {E : Type} [DecidableEq E] (s1 s2 : List E) : List E :=
  Distinct (if s1.length > 0 ∧ s2.length > 0
    then intersectLoop (fillLoop s2 KeySet.empty) s1 [] else [])

/-! ## Specification-side definitions -/

/-- The subsequence of `s` that keeps the element at position `i` exactly when
`i` is the first position at which that value occurs in `s`. -/
def keepFirstOccurrence {E : Type} [DecidableEq E] (s : List E) : List E :=
  (s.enum.filter (fun p => decide (s.indexOf p.2 = p.1))).map Prod.snd

/-! ## Equality (`slices.Equal`) and sorting (`slices.Sort`) -/

/-- The loop of `slices.Equal`, entered with `len(s1) == len(s2)`:
`for i := range s1 { if s1[i] != s2[i] { return false } }; return true`. -/
def equalLoop {E : Type} [DecidableEq E] : List E → List E → Bool
  | v1 :: r1, v2 :: r2 => if v1 ≠ v2 then false else equalLoop r1 r2
  | _, _ => true

/-- The function `Equal`, that is `slices.Equal`: `if len(s1) != len(s2) { return false }`,
then the loop. -/
def Equal {E : Type} [DecidableEq E] (s1 s2 : List E) : Bool :=
  if s1.length ≠ s2.length then false else equalLoop s1 s2

/-- The contents `slices.Sort` leaves in a slice of an ordered type: the
ascending rearrangement of its elements. -/
def sorted {E : Type} [LinearOrder E] (s : List E) : List E :=
  s.insertionSort (· ≤ ·)

/-! ## Slices over a store

All backing arrays lie in one sequence of cells, the `Store`. A slice header
gives the cell of element 0, the length and the capacity. Two headers may
describe overlapping cells, as two Go slices of one array do. -/

/-- The cells of all backing arrays. -/
abbrev Store (E : Type) := List E

/-- A slice header. -/
structure SliceHdr where
  /-- The cell of element 0. -/
  ptr : Nat
  /-- The value of `len(s)`. -/
  len : Nat
  /-- The value of `cap(s)`. -/
  cap : Nat
deriving DecidableEq, Repr

/-- A header is well formed in a store: `len ≤ cap` and the capacity lies inside the store. -/
def SliceHdr.wf {E : Type} (m : Store E) (s : SliceHdr) : Prop :=
  s.len ≤ s.cap ∧ s.ptr + s.cap ≤ m.length

instance {E : Type} (m : Store E) (s : SliceHdr) : Decidable (s.wf m) := by
  unfold SliceHdr.wf; infer_instance

/-- The elements of a slice: `s[0], ..., s[len(s)-1]`. -/
def view {E : Type} (m : Store E) (s : SliceHdr) : List E :=
  (m.drop s.ptr).take s.len

/-- The store after the cells `p, p+1, ...` receive the values `xs`. -/
def write {E : Type} (m : Store E) (p : Nat) (xs : List E) : Store E :=
  m.take p ++ xs ++ m.drop (p + xs.length)

/-- The slice expression `s[i:j]`; `none` is the run-time panic when
`0 ≤ i ≤ j ≤ cap(s)` fails. -/
def reslice (s : SliceHdr) (i j : Int) : Option SliceHdr :=
  if 0 ≤ i ∧ i ≤ j ∧ j ≤ (s.cap : Int) then
    some ⟨s.ptr + i.toNat, (j - i).toNat, s.cap - i.toNat⟩
  else none

/-- The built-in `append(s, t...)`: when `len(s) + len(t) ≤ cap(s)` the elements
of `t` are copied (as by `memmove`) into the cells after `s` and the result shares
the array of `s`; otherwise a new array receives the elements of `s` and of `t`.
The spare capacity of a new array is not observable by this module and is left out. -/
def goAppend {E : Type} (m : Store E) (s t : SliceHdr) : Store E × SliceHdr :=
  if s.len + t.len ≤ s.cap then
    (write m (s.ptr + s.len) (view m t), ⟨s.ptr, s.len + t.len, s.cap⟩)
  else
    (m ++ (view m s ++ view m t), ⟨m.length, s.len + t.len, s.len + t.len⟩)

/-- The library function `slices.Delete(s, i, j)`: `_ = s[i:j]` (bounds check), then
`return append(s[:i], s[j:]...)`; `none` is a panic. Later versions of the library also
clear the vacated cell, which lies outside the returned slice. -/
def slicesDelete {E : Type} (m : Store E) (s : SliceHdr) (i j : Int) :
    Option (Store E × SliceHdr) :=
  match reslice s i j, reslice s 0 i, reslice s j s.len with
  | some _, some a, some b => some (goAppend m a b)
  | _, _, _ => none

/-- The function `Delete`: `return slices.Delete(s, i, i+1)`. -/
def Delete {E : Type} (m : Store E) (s : SliceHdr) (i : Int) : Option (Store E × SliceHdr) :=
  slicesDelete m s i (i + 1)

/-- The function `Union`: `s := append(s1, s2...); return Distinct(s)`. The result of
`Distinct` is a newly built slice and is returned by value, next to the store that `append`
leaves. -/
def Union {E : Type} [DecidableEq E] (m : Store E) (s1 s2 : SliceHdr) : Store E × List E :=
  let r := goAppend m s1 s2
  (r.1, Distinct (view r.1 r.2))

/-- In-place `slices.Sort(s)`. -/
def sortInPlace {E : Type} [LinearOrder E] (m : Store E) (s : SliceHdr) : Store E :=
  write m s.ptr (sorted (view m s))

/-- The function `EqualIgnoreOrder`: `slices.Sort(s1); slices.Sort(s2); return Equal(s1, s2)`. -/
def EqualIgnoreOrder {E : Type} [LinearOrder E] (m : Store E) (s1 s2 : SliceHdr) :
    Store E × Bool :=
  let m1 := sortInPlace m s1
  let m2 := sortInPlace m1 s2
  (m2, Equal (view m2 s1) (view m2 s2))

/-! ## Integer types and `strconv`

A value of an integer type is its numeric value, an `Int` in the range of the type. A Go
string is the list of its bytes, each written as the character with that code. The width of
`int` is a parameter `intSize` (32 or 64), as in `strconv.IntSize`. -/

/-- An integer type of `constraints.Integer`: signedness and width in bits. -/
structure IntType where
  /-- Whether the type is signed. -/
  signed : Bool
  /-- The width: 8, 16, 32 or 64. -/
  bits : Nat
deriving DecidableEq, Repr

/-- The widths Go has. -/
def IntType.valid (E : IntType) : Prop :=
  E.bits = 8 ∨ E.bits = 16 ∨ E.bits = 32 ∨ E.bits = 64

instance (E : IntType) : Decidable E.valid := by
  unfold IntType.valid; infer_instance

/-- The values of the type. -/
def IntType.inRange (E : IntType) (x : Int) : Prop :=
  if E.signed then -(2 : Int) ^ (E.bits - 1) ≤ x ∧ x < (2 : Int) ^ (E.bits - 1)
  else 0 ≤ x ∧ x < (2 : Int) ^ E.bits

instance (E : IntType) (x : Int) : Decidable (E.inRange x) := by
  unfold IntType.inRange; infer_instance

/-- The conversion `E(x)` of an integer value: the value of the low `bits` bits of `x`. -/
def IntType.conv (E : IntType) (x : Int) : Int :=
  if E.signed then (x + (2 : Int) ^ (E.bits - 1)) % (2 : Int) ^ E.bits - (2 : Int) ^ (E.bits - 1)
  else x % (2 : Int) ^ E.bits

/-- The type `int64`. -/
def int64 : IntType := ⟨true, 64⟩

/-- The type `int`, of width `intSize`. -/
def int (intSize : Nat) : IntType := ⟨true, intSize⟩

/-- A Go string. -/
abbrev GoString := List Char

/-- The digit `d` as a byte: `'0' + d`. -/
def digitChar (d : Nat) : Char := Char.ofNat (48 + d)

/-- The digit loop of `strconv.formatBits` in base 10, filling the buffer from its end:
`for u >= 10 { q := u / 10; a[i] = '0' + u - q*10; u = q }; a[i] = '0' + u`.
The first argument bounds the number of digits, as the buffer does. -/
def formatDigits : Nat → Nat → List Char → List Char
  | 0, _, acc => acc
  | fuel + 1, u, acc =>
    if u ≥ 10 then formatDigits fuel (u / 10) (digitChar (u % 10) :: acc)
    else digitChar u :: acc

/-- The library function `strconv.FormatInt(i, 10)` for an `int64` value `i`: the digits of
the magnitude, after a `-` when `i < 0`. -/
def FormatInt (i : Int) : GoString :=
  if i < 0 then '-' :: formatDigits 20 i.natAbs [] else formatDigits 20 i.natAbs []

/-- The two errors of `strconv`. -/
inductive ErrKind where
  | ErrSyntax
  | ErrRange
deriving DecidableEq, Repr

/-- The error value `*strconv.NumError`. -/
structure NumError where
  /-- The failing function. -/
  Func : String
  /-- The input. -/
  Num : GoString
  /-- The reason. -/
  Err : ErrKind
deriving DecidableEq, Repr

/-- The helper `syntaxError(fn, str)`. -/
def syntaxError (fn : String) (str : GoString) : NumError := ⟨fn, str, ErrKind.ErrSyntax⟩

/-- The helper `rangeError(fn, str)`. -/
def rangeError (fn : String) (str : GoString) : NumError := ⟨fn, str, ErrKind.ErrRange⟩

/-- Whether a byte is a decimal digit. -/
def isDigit (c : Char) : Bool := decide ('0' ≤ c ∧ c ≤ '9')

/-- The loop of `strconv.ParseUint(s, 10, bitSize)` over the bytes of `s`, with
`cutoff = maxUint64/10 + 1` and `maxVal = 1<<bitSize - 1`; `n` is a `uint64`. -/
def parseUintLoop (maxVal : Nat) (s0 : GoString) : List Char → Nat → Nat × Option NumError
  | [], n => (n, none)
  | c :: rest, n =>
    if !(isDigit c) then (0, some (syntaxError "ParseUint" s0))
    else
      let d := c.toNat - 48
      if n ≥ (2 ^ 64 - 1) / 10 + 1 then (maxVal, some (rangeError "ParseUint" s0))
      else
        let n10 := (n * 10) % 2 ^ 64
        let n1 := (n10 + d) % 2 ^ 64
        if n1 < n10 ∨ n1 > maxVal then (maxVal, some (rangeError "ParseUint" s0))
        else parseUintLoop maxVal s0 rest n1

/-- The library function `strconv.ParseUint(s, 10, bitSize)` with `bitSize` already resolved. -/
def ParseUint (s : GoString) (bitSize : Nat) : Nat × Option NumError :=
  if s = [] then (0, some (syntaxError "ParseUint" s))
  else parseUintLoop (2 ^ bitSize - 1) s s 0

/-- The second half of `strconv.ParseInt`, after `un, err = ParseUint(s, base, bitSize)`:
an error other than a range error is returned under the name `ParseInt`; otherwise `un` is
checked against `cutoff = 1 << (bitSize-1)` and negated when `neg`. -/
def parseIntCheck (intSize : Nat) (neg : Bool) (s0 : GoString) :
    Nat × Option NumError → Int × Option NumError
  | (_, some ⟨_, _, ErrKind.ErrSyntax⟩) => (0, some (syntaxError "ParseInt" s0))
  | (un, _) =>
    if neg = false ∧ un ≥ 2 ^ (intSize - 1) then
      (((2 ^ (intSize - 1) - 1 : Nat) : Int), some (rangeError "ParseInt" s0))
    else if neg = true ∧ un > 2 ^ (intSize - 1) then
      (-((2 ^ (intSize - 1) : Nat) : Int), some (rangeError "ParseInt" s0))
    else (if neg then -(un : Int) else (un : Int), none)

/-- The library function `strconv.ParseInt(s, 10, 0)`, where bit size 0 stands for
`intSize`: the empty string is a syntax error, a leading `+` or `-` is picked off, the rest
goes to `ParseUint`. The result is the value and the error. -/
def ParseInt (intSize : Nat) (s0 : GoString) : Int × Option NumError :=
  match s0 with
  | [] => (0, some (syntaxError "ParseInt" s0))
  | c :: r =>
    parseIntCheck intSize (decide (c = '-')) s0
      (ParseUint (if c = '+' ∨ c = '-' then r else s0) intSize)

/-- The loop of the fast path of `strconv.Atoi`: `ch -= '0'; if ch > 9 { syntax error };
n = n*10 + int(ch)`. -/
def atoiFastLoop (s0 : GoString) : List Char → Int → Int × Option NumError
  | [], n => (n, none)
  | c :: rest, n =>
    if !(isDigit c) then (0, some (syntaxError "Atoi" s0))
    else atoiFastLoop s0 rest (n * 10 + ((c.toNat - 48 : Nat) : Int))

/-- The library function `strconv.Atoi(s)`: the fast path for strings short enough to fit
`int`, else `ParseInt(s, 10, 0)` with the error's function name set to `Atoi`. -/
def Atoi (intSize : Nat) (s0 : GoString) : Int × Option NumError :=
  if (intSize = 32 ∧ 0 < s0.length ∧ s0.length < 10) ∨
      (intSize = 64 ∧ 0 < s0.length ∧ s0.length < 19) then
    match s0 with
    | [] => (0, some (syntaxError "Atoi" s0))
    | c :: r =>
      let s := if c = '-' ∨ c = '+' then r else s0
      if s.length < 1 then (0, some (syntaxError "Atoi" s0))
      else
        match atoiFastLoop s0 s 0 with
        | (_, some e) => (0, some e)
        | (n, none) => (if c = '-' then -n else n, none)
  else
    match ParseInt intSize s0 with
    | (i64, some e) => ((int intSize).conv i64, some ⟨"Atoi", e.Num, e.Err⟩)
    | (i64, none) => ((int intSize).conv i64, none)

/-! ## IntToString and StringToInt -/

/-- The loop of `IntToString`: `res = append(res, strconv.FormatInt(int64(s[i]), 10))`. -/
def intToStringLoop : List Int → List GoString → List GoString
  | [], res => res
  | x :: rest, res => intToStringLoop rest (res ++ [FormatInt (int64.conv x)])

/-- The function `IntToString` on a slice of values of an integer type. -/
def IntToString (s : List Int) : List GoString :=
  intToStringLoop s []

/-- The loop of `StringToInt[E]`: `if val, err := strconv.Atoi(s[i]); err != nil
{ return nil, err } else { res = append(res, E(val)) }`. -/
def stringToIntLoop (intSize : Nat) (E : IntType) :
    List GoString → List Int → List Int × Option NumError
  | [], res => (res, none)
  | x :: rest, res =>
    match Atoi intSize x with
    | (_, some err) => ([], some err)
    | (val, none) => stringToIntLoop intSize E rest (res ++ [E.conv val])

/-- The function `StringToInt[E]`: the result slice and the error. -/
def StringToInt (intSize : Nat) (E : IntType) (s : List GoString) :
    List Int × Option NumError :=
  stringToIntLoop intSize E s []

/-! ## Decimal numerals (specification side) -/

/-- The number a string of decimal digits denotes, if it is one. -/
def digitsValue : List Char → Nat → Option Nat
  | [], n => some n
  | c :: rest, n => if isDigit c then digitsValue rest (n * 10 + (c.toNat - 48)) else none

/-- The integer a string denotes in base 10: an optional sign `+` or `-`, then one or more
decimal digits. -/
def decimalValue (s : GoString) : Option Int :=
  match s with
  | [] => none
  | c :: r =>
    if c = '-' then (if r = [] then none else (digitsValue r 0).map (fun n => -(n : Int)))
    else if c = '+' then (if r = [] then none else (digitsValue r 0).map (fun n => (n : Int)))
    else (digitsValue s 0).map (fun n => (n : Int))

/-- The integer a string denotes in base 10, when that integer is a value of `int`. -/
def intValue (intSize : Nat) (s : GoString) : Option Int :=
  (decimalValue s).bind (fun v => if (int intSize).inRange v then some v else none)

/-! ## Index, Sum, LongToInt64 -/

/-- The loop of `slices.Index`: `for i := range s { if v == s[i] { return i } }; return -1`.
The counter is the index of the head of the elements still to visit. -/
def indexLoop {E : Type} [DecidableEq E] (v : E) : List E → Nat → Int
  | [], _ => -1
  | x :: rest, i => if v = x then (i : Int) else indexLoop v rest (i + 1)

/-- The function `Index`, that is `slices.Index`. -/
def Index {E : Type} [DecidableEq E] (s : List E) (v : E) : Int :=
  indexLoop v s 0

/-- The loop of `Sum` at an integer type `E`: `e += v`, the addition of `E`, which wraps. -/
def sumLoop (E : IntType) : List Int → Int → Int
  | [], e => e
  | v :: rest, e => sumLoop E rest (E.conv (e + v))

/-- The function `Sum` at an integer type `E`: `var e E`, the loop, `return e`. -/
def Sum (E : IntType) (s : List Int) : Int :=
  sumLoop E s 0

/-- Modelled from the spec: the type `json.Long` of the companion package, whose declaration
is not in this repository: a boxed integer with an underlying `int64` value, which
`LongToInt64` reads as the field `Int64`. A `*json.Long` is an `Option Long`, with `none`
for the nil pointer, the absent entry. -/
structure Long where
  /-- The underlying value. -/
  Int64 : Int
deriving DecidableEq, Repr

/-- The loop of `LongToInt64`: `if v != nil { rs = append(rs, v.Int64) }`. -/
def longToInt64Loop : List (Option Long) → List Int → List Int
  | [], rs => rs
  | some l :: rest, rs => longToInt64Loop rest (rs ++ [l.Int64])
  | none :: rest, rs => longToInt64Loop rest rs

/-- The function `LongToInt64`: `var rs []int64`, the loop, `return rs`. -/
def LongToInt64 (s : List (Option Long)) : List Int :=
  longToInt64Loop s []

/-! ## Overlap of slices -/

/-- Two slices share no cell; an empty slice shares none. -/
def SliceHdr.disjoint (s t : SliceHdr) : Prop :=
  s.len = 0 ∨ t.len = 0 ∨ s.ptr + s.len ≤ t.ptr ∨ t.ptr + t.len ≤ s.ptr

instance (s t : SliceHdr) : Decidable (s.disjoint t) := by
  unfold SliceHdr.disjoint; infer_instance

/-- Two slices consist of the same cells. -/
def SliceHdr.sameCells (s t : SliceHdr) : Prop :=
  s.ptr = t.ptr ∧ s.len = t.len

instance (s t : SliceHdr) : Decidable (s.sameCells t) := by
  unfold SliceHdr.sameCells; infer_instance

/-! ## The operations over the store

Every operation is written here with its argument slices as headers into a store, and
returns the store it leaves next to its result. A statement that builds a slice of the
element type of its argument (`append(res, v)`) stores into that store; a result of another
element type is built in arrays of that other type and is returned by value. A callback is a
Go closure: it receives the program state, of which a projection gives the store, and
returns the state it leaves. -/

/-- The nil slice, the value of `var res S`. -/
def nilSlice : SliceHdr := ⟨0, 0, 0⟩

/-- The element `s[i]` as read from the store; `none` when `i` is not below `len(s)`. -/
def loadAt {E : Type} (m : Store E) (s : SliceHdr) (i : Nat) : Option E :=
  if i < s.len then m[s.ptr + i]? else none

/-- The built-in `append(s, v)` of one value: stored in the cell after `s` when
`len(s) + 1 ≤ cap(s)`, else a new array receives the elements of `s` and `v`. As in
`goAppend`, the spare capacity of a new array is left out. -/
def appendVal {E : Type} (m : Store E) (s : SliceHdr) (v : E) : Store E × SliceHdr :=
  if s.len + 1 ≤ s.cap then
    (write m (s.ptr + s.len) [v], ⟨s.ptr, s.len + 1, s.cap⟩)
  else
    (m ++ (view m s ++ [v]), ⟨m.length, s.len + 1, s.len + 1⟩)

/-- That the slice `s` is a slice of the store `m2` and holds there the elements it held in
the store `m1`. -/
def Unchanged {E : Type} (m1 m2 : Store E) (s : SliceHdr) : Prop :=
  s.wf m2 ∧ view m2 s = view m1 s

namespace Stored

/-- The function `Slice`: `return []E(s)`, the slice of its variadic arguments. -/
def Slice {E : Type} (m : Store E) (s : SliceHdr) : Store E × SliceHdr :=
  (m, s)

/-- The loop of `slices.Index` over the indices `i, i+1, ...` of `s`:
`if v == s[i] { return i }`, and `return -1` after the last index. The first argument
counts the indices still to visit. -/
def indexLoop {E : Type} [DecidableEq E] (v : E) (s : SliceHdr) :
    Nat → Nat → Store E → Store E × Int
  | 0, _, m => (m, -1)
  | n + 1, i, m =>
    match loadAt m s i with
    | none => (m, -1)
    | some x => if v = x then (m, (i : Int)) else indexLoop v s n (i + 1) m

/-- The function `Index`: `return slices.Index(s, v)`. -/
def Index {E : Type} [DecidableEq E] (m : Store E) (s : SliceHdr) (v : E) : Store E × Int :=
  indexLoop v s s.len 0 m

/-- The loop of `slices.IndexFunc` over the indices `i, i+1, ...` of `s`:
`if f(s[i]) { return i }`, and `return -1` after the last index. The first argument
counts the indices still to visit. -/
def indexFuncLoop {σ E : Type} (get : σ → Store E) (f : E → σ → Bool × σ) (s : SliceHdr) :
    Nat → Nat → σ → σ × Int
  | 0, _, st => (st, -1)
  | n + 1, i, st =>
    match loadAt (get st) s i with
    | none => (st, -1)
    | some x =>
      if (f x st).1 then ((f x st).2, (i : Int))
      else indexFuncLoop get f s n (i + 1) (f x st).2

/-- The function `IndexFunc`: `return slices.IndexFunc(s, f)`. -/
def IndexFunc {σ E : Type} (get : σ → Store E) (f : E → σ → Bool × σ) (st : σ)
    (s : SliceHdr) : σ × Int :=
  indexFuncLoop get f s s.len 0 st

/-- The function `Contains`: `return slices.Contains(s, v)`, that is
`slices.Index(s, v) >= 0`. -/
def Contains {E : Type} [DecidableEq E] (m : Store E) (s : SliceHdr) (v : E) :
    Store E × Bool :=
  ((Index m s v).1, decide (0 ≤ (Index m s v).2))

/-- The loop of `slices.Equal` over the indices of `s1`:
`if s1[i] != s2[i] { return false }`, and `return true` after the last index. -/
def equalLoop {E : Type} [DecidableEq E] (s1 s2 : SliceHdr) :
    Nat → Nat → Store E → Store E × Bool
  | 0, _, m => (m, true)
  | n + 1, i, m =>
    match loadAt m s1 i, loadAt m s2 i with
    | some v1, some v2 => if v1 ≠ v2 then (m, false) else equalLoop s1 s2 n (i + 1) m
    | _, _ => (m, false)

/-- The function `Equal`: `return slices.Equal(s1, s2)`, that is
`if len(s1) != len(s2) { return false }`, then the loop. -/
def Equal {E : Type} [DecidableEq E] (m : Store E) (s1 s2 : SliceHdr) : Store E × Bool :=
  if s1.len ≠ s2.len then (m, false) else equalLoop s1 s2 s1.len 0 m

/-- The loop of `slices.EqualFunc`: `v2 := s2[i]; if !eq(v1, v2) { return false }`, and
`return true` after the last index. The two slices have their own element types, and the
program state projects to the store of each. -/
def equalFuncLoop {σ E1 E2 : Type} (get1 : σ → Store E1) (get2 : σ → Store E2)
    (eq : E1 → E2 → σ → Bool × σ) (s1 s2 : SliceHdr) : Nat → Nat → σ → σ × Bool
  | 0, _, st => (st, true)
  | n + 1, i, st =>
    match loadAt (get1 st) s1 i, loadAt (get2 st) s2 i with
    | some v1, some v2 =>
      if !(eq v1 v2 st).1 then ((eq v1 v2 st).2, false)
      else equalFuncLoop get1 get2 eq s1 s2 n (i + 1) (eq v1 v2 st).2
    | _, _ => (st, false)

/-- The function `EqualFunc`: `return slices.EqualFunc(s1, s2, eq)`, that is
`if len(s1) != len(s2) { return false }`, then the loop. -/
def EqualFunc {σ E1 E2 : Type} (get1 : σ → Store E1) (get2 : σ → Store E2)
    (eq : E1 → E2 → σ → Bool × σ) (st : σ) (s1 s2 : SliceHdr) : σ × Bool :=
  if s1.len ≠ s2.len then (st, false)
  else equalFuncLoop get1 get2 eq s1 s2 s1.len 0 st

/-- The loop of `Distinct` over the indices `i, i+1, ...` of `s`, with the store, the map
and the header of `res` as loop state. The first argument counts the indices still to
visit. -/
def distinctLoop {E : Type} [DecidableEq E] (s : SliceHdr) :
    Nat → Nat → Store E → KeySet E → SliceHdr → Store E × SliceHdr
  | 0, _, m, _, res => (m, res)
  | n + 1, i, m, mp, res =>
    match loadAt m s i with
    | none => (m, res)
    | some v =>
      if !(mp.found v) then
        distinctLoop s n (i + 1) (appendVal m res v).1 (mp.store v) (appendVal m res v).2
      else distinctLoop s n (i + 1) m mp res

/-- The function `Distinct` over the store. -/
def Distinct {E : Type} [DecidableEq E] (m : Store E) (s : SliceHdr) : Store E × SliceHdr :=
  if s.len > 0 then distinctLoop s s.len 0 m KeySet.empty nilSlice else (m, nilSlice)

/-- The second loop of `Subtract` over the indices of `s1`: `s = append(s, v)` when `v` is
not found in `mp`. -/
def subtractLoop {E : Type} [DecidableEq E] (mp : KeySet E) (s1 : SliceHdr) :
    Nat → Nat → Store E → SliceHdr → Store E × SliceHdr
  | 0, _, m, s => (m, s)
  | n + 1, i, m, s =>
    match loadAt m s1 i with
    | none => (m, s)
    | some v =>
      if !(mp.found v) then
        subtractLoop mp s1 n (i + 1) (appendVal m s v).1 (appendVal m s v).2
      else subtractLoop mp s1 n (i + 1) m s

/-- The function `Subtract` over the store; its first loop reads `s2` into the map. -/
def Subtract {E : Type} [DecidableEq E] (m : Store E) (s1 s2 : SliceHdr) :
    Store E × SliceHdr :=
  if s1.len > 0 then subtractLoop (fillLoop (view m s2) KeySet.empty) s1 s1.len 0 m nilSlice
  else (m, nilSlice)

/-- The second loop of `Intersect` over the indices of `s1`: `s = append(s, v)` when `v` is
found in `mp`. -/
def intersectLoop {E : Type} [DecidableEq E] (mp : KeySet E) (s1 : SliceHdr) :
    Nat → Nat → Store E → SliceHdr → Store E × SliceHdr
  | 0, _, m, s => (m, s)
  | n + 1, i, m, s =>
    match loadAt m s1 i with
    | none => (m, s)
    | some v =>
      if mp.found v then
        intersectLoop mp s1 n (i + 1) (appendVal m s v).1 (appendVal m s v).2
      else intersectLoop mp s1 n (i + 1) m s

/-- The function `Intersect` over the store: the loops under
`len(s1) > 0 && len(s2) > 0`, then `return Distinct(s)`. -/
def Intersect {E : Type} [DecidableEq E] (m : Store E) (s1 s2 : SliceHdr) :
    Store E × SliceHdr :=
  if s1.len > 0 ∧ s2.len > 0 then
    Distinct (intersectLoop (fillLoop (view m s2) KeySet.empty) s1 s1.len 0 m nilSlice).1
      (intersectLoop (fillLoop (view m s2) KeySet.empty) s1 s1.len 0 m nilSlice).2
  else Distinct m nilSlice

/-- The function `Union` over the store: `s := append(s1, s2...); return Distinct(s)`. -/
def Union {E : Type} [DecidableEq E] (m : Store E) (s1 s2 : SliceHdr) : Store E × SliceHdr :=
  Distinct (goAppend m s1 s2).1 (goAppend m s1 s2).2

/-- The loop of `Sum` at an integer type `E` over the indices of `s`: `e += v`. -/
def sumLoop (E : IntType) (s : SliceHdr) : Nat → Nat → Store Int → Int → Store Int × Int
  | 0, _, m, e => (m, e)
  | n + 1, i, m, e =>
    match loadAt m s i with
    | none => (m, e)
    | some v => sumLoop E s n (i + 1) m (E.conv (e + v))

/-- The function `Sum` at an integer type `E`: `var e E`, the loop, `return e`. -/
def Sum (E : IntType) (m : Store Int) (s : SliceHdr) : Store Int × Int :=
  sumLoop E s s.len 0 m 0

/-- The loop of `IntToString` over the indices of `s`:
`res = append(res, strconv.FormatInt(int64(s[i]), 10))`; the result is a slice of strings. -/
def intToStringLoop (s : SliceHdr) :
    Nat → Nat → Store Int → List GoString → Store Int × List GoString
  | 0, _, m, res => (m, res)
  | n + 1, i, m, res =>
    match loadAt m s i with
    | none => (m, res)
    | some x => intToStringLoop s n (i + 1) m (res ++ [FormatInt (int64.conv x)])

/-- The function `IntToString`: `var res []string`, the loop, `return res`. -/
def IntToString (m : Store Int) (s : SliceHdr) : Store Int × List GoString :=
  intToStringLoop s s.len 0 m []

/-- The loop of `StringToInt[E]` over the indices of `s`: `strconv.Atoi(s[i])`, then
`return nil, err` or `res = append(res, E(val))`; the result is a slice of integers. -/
def stringToIntLoop (intSize : Nat) (E : IntType) (s : SliceHdr) :
    Nat → Nat → Store GoString → List Int → Store GoString × (List Int × Option NumError)
  | 0, _, m, res => (m, (res, none))
  | n + 1, i, m, res =>
    match loadAt m s i with
    | none => (m, (res, none))
    | some x =>
      match Atoi intSize x with
      | (_, some err) => (m, ([], some err))
      | (val, none) => stringToIntLoop intSize E s n (i + 1) m (res ++ [E.conv val])

/-- The function `StringToInt[E]`: `var res []E`, the loop, `return res, nil`. -/
def StringToInt (intSize : Nat) (E : IntType) (m : Store GoString) (s : SliceHdr) :
    Store GoString × (List Int × Option NumError) :=
  stringToIntLoop intSize E s s.len 0 m []

/-- The loop of `LongToInt64` over the indices of `s`:
`if v != nil { rs = append(rs, v.Int64) }`; the result is a slice of `int64`. -/
def longToInt64Loop (s : SliceHdr) :
    Nat → Nat → Store (Option Long) → List Int → Store (Option Long) × List Int
  | 0, _, m, rs => (m, rs)
  | n + 1, i, m, rs =>
    match loadAt m s i with
    | none => (m, rs)
    | some (some l) => longToInt64Loop s n (i + 1) m (rs ++ [l.Int64])
    | some none => longToInt64Loop s n (i + 1) m rs

/-- The function `LongToInt64`: `var rs []int64`, the loop, `return rs`. -/
def LongToInt64 (m : Store (Option Long)) (s : SliceHdr) :
    Store (Option Long) × List Int :=
  longToInt64Loop s s.len 0 m []

/-- The function `Int64ToLong`: `return json.NewLongSlice(s)`. The constructor
`json.NewLongSlice` belongs to another package and is a parameter: it receives the store
and the slice and returns the store it leaves and its result. -/
def Int64ToLong {α : Type} (newLongSlice : Store Int → SliceHdr → Store Int × α)
    (m : Store Int) (s : SliceHdr) : Store Int × α :=
  newLongSlice m s

end Stored

/-! ## Theorems -/

/-! ## Membership sets -/

theorem KeySet.found_iff {E : Type} [DecidableEq E] (m : KeySet E) (v : E) :
    m.found v = true ↔ v ∈ m := by
  simp [KeySet.found]

theorem KeySet.mem_store {E : Type} [DecidableEq E] (m : KeySet E) (v x : E) :
    x ∈ m.store v ↔ x = v ∨ x ∈ m := by
  unfold KeySet.store
  split
  · constructor
    · intro h; exact Or.inr h
    · rintro (rfl | h)
      · assumption
      · exact h
  · simp

theorem mem_fillLoop {E : Type} [DecidableEq E] (s : List E) (mp : KeySet E) (x : E) :
    x ∈ fillLoop s mp ↔ x ∈ s ∨ x ∈ mp := by
  induction s generalizing mp with
  | nil => simp [fillLoop]
  | cons v rest ih =>
    simp only [fillLoop, ih, KeySet.mem_store, List.mem_cons]
    tauto

theorem subtractLoop_eq {E : Type} [DecidableEq E] (mp : KeySet E) (rest s : List E) :
    subtractLoop mp rest s = s ++ rest.filter (fun v => decide (v ∉ mp)) := by
  induction rest generalizing s with
  | nil => simp [subtractLoop]
  | cons v rest ih =>
    by_cases h : v ∈ mp
    · simp [subtractLoop, KeySet.found, h, ih]
    · simp [subtractLoop, KeySet.found, h, ih]

theorem intersectLoop_eq {E : Type} [DecidableEq E] (mp : KeySet E) (rest s : List E) :
    intersectLoop mp rest s = s ++ rest.filter (fun v => decide (v ∈ mp)) := by
  induction rest generalizing s with
  | nil => simp [intersectLoop]
  | cons v rest ih =>
    by_cases h : v ∈ mp
    · simp [intersectLoop, KeySet.found, h, ih]
    · simp [intersectLoop, KeySet.found, h, ih]

/-! ## The loop of `Distinct` -/

theorem mem_distinctLoop {E : Type} [DecidableEq E] (rest : List E) (m : KeySet E)
    (res : List E) (x : E) :
    x ∈ distinctLoop rest m res ↔ x ∈ res ∨ (x ∈ rest ∧ x ∉ m) := by
  induction rest generalizing m res with
  | nil => simp [distinctLoop]
  | cons v rest ih =>
    by_cases h : v ∈ m
    · simp only [distinctLoop, KeySet.found, h, decide_True, Bool.not_true, ih, List.mem_cons,
        Bool.false_eq_true, if_false]
      constructor
      · rintro (h1 | ⟨h1, h2⟩)
        · exact Or.inl h1
        · exact Or.inr ⟨Or.inr h1, h2⟩
      · rintro (h1 | ⟨rfl | h1, h2⟩)
        · exact Or.inl h1
        · exact absurd h h2
        · exact Or.inr ⟨h1, h2⟩
    · simp only [distinctLoop, KeySet.found, h, decide_False, Bool.not_false, if_true, ih,
        List.mem_append, List.mem_singleton, KeySet.mem_store, List.mem_cons, List.not_mem_nil,
        or_false]
      constructor
      · rintro ((h1 | rfl) | ⟨h1, h2⟩)
        · exact Or.inl h1
        · exact Or.inr ⟨Or.inl rfl, h⟩
        · exact Or.inr ⟨Or.inr h1, fun h3 => h2 (Or.inr h3)⟩
      · rintro (h1 | ⟨rfl | h1, h2⟩)
        · exact Or.inl (Or.inl h1)
        · exact Or.inl (Or.inr rfl)
        · by_cases hx : x = v
          · exact Or.inl (Or.inr hx)
          · exact Or.inr ⟨h1, fun h3 => h3.elim hx h2⟩

theorem nodup_distinctLoop {E : Type} [DecidableEq E] (rest : List E) (m : KeySet E)
    (res : List E) (hres : res.Nodup) (hsub : ∀ x ∈ res, x ∈ m) :
    (distinctLoop rest m res).Nodup := by
  induction rest generalizing m res with
  | nil => simpa [distinctLoop] using hres
  | cons v rest ih =>
    by_cases h : v ∈ m
    · simp only [distinctLoop, KeySet.found, h, decide_True, Bool.not_true, Bool.false_eq_true,
        if_false]
      exact ih m res hres hsub
    · simp only [distinctLoop, KeySet.found, h, decide_False, Bool.not_false, if_true]
      apply ih
      · rw [List.nodup_append]
        refine ⟨hres, List.nodup_singleton v, ?_⟩
        intro a ha hb
        rw [List.mem_singleton] at hb
        subst hb
        exact h (hsub a ha)
      · intro x hx
        rw [List.mem_append, List.mem_singleton] at hx
        rw [KeySet.mem_store]
        rcases hx with hx | hx
        · exact Or.inr (hsub x hx)
        · exact Or.inl hx

theorem indexOf_append_cons_eq_length {E : Type} [DecidableEq E] (pre rest : List E) (v : E) :
    (pre ++ v :: rest).indexOf v = pre.length ↔ v ∉ pre := by
  constructor
  · intro h hv
    have h1 := List.indexOf_lt_length.2 hv
    rw [List.indexOf_append_of_mem hv] at h
    omega
  · intro hv
    rw [List.indexOf_append_of_not_mem hv]
    simp

theorem distinctLoop_eq {E : Type} [DecidableEq E] (rest pre : List E) (m : KeySet E)
    (res : List E) (hm : ∀ x, x ∈ m ↔ x ∈ pre) :
    distinctLoop rest m res = res ++
      ((rest.enumFrom pre.length).filter
        (fun p => decide ((pre ++ rest).indexOf p.2 = p.1))).map Prod.snd := by
  induction rest generalizing pre m res with
  | nil => simp [distinctLoop]
  | cons v rest ih =>
    have hs : pre ++ v :: rest = (pre ++ [v]) ++ rest := by simp
    have hl : pre.length + 1 = (pre ++ [v]).length := by simp
    by_cases h : v ∈ m
    · have hp : ¬ ((pre ++ v :: rest).indexOf v = pre.length) := by
        rw [indexOf_append_cons_eq_length]; exact fun hn => hn ((hm v).1 h)
      simp only [distinctLoop, KeySet.found, h, decide_True, Bool.not_true, List.enumFrom_cons,
        Bool.false_eq_true, if_false]
      rw [List.filter_cons_of_neg (by simpa using hp), hs, hl]
      apply ih
      intro x
      rw [hm x, List.mem_append, List.mem_singleton]
      constructor
      · exact Or.inl
      · rintro (hx | rfl)
        · exact hx
        · exact (hm _).1 h
    · have hp : (pre ++ v :: rest).indexOf v = pre.length := by
        rw [indexOf_append_cons_eq_length]; exact fun hn => h ((hm v).2 hn)
      simp only [distinctLoop, KeySet.found, h, decide_False, Bool.not_false, if_true,
        List.enumFrom_cons]
      rw [List.filter_cons_of_pos (by simpa using hp), hs, hl, List.map_cons]
      rw [ih (pre ++ [v]) (m.store v) (res ++ [v])]
      · simp
      · intro x
        rw [KeySet.mem_store, hm x, List.mem_append, List.mem_singleton]
        tauto

theorem Distinct_eq_keepFirstOccurrence {E : Type} [DecidableEq E] (s : List E) :
    Distinct s = keepFirstOccurrence s := by
  unfold Distinct keepFirstOccurrence
  split
  · have := distinctLoop_eq s [] KeySet.empty [] (by simp [KeySet.empty])
    simpa [List.enum] using this
  · have : s = [] := by
      cases s with
      | nil => rfl
      | cons a t => simp at *
    subst this
    rfl

theorem mem_Distinct {E : Type} [DecidableEq E] (s : List E) (x : E) :
    x ∈ Distinct s ↔ x ∈ s := by
  unfold Distinct
  split
  · simp [mem_distinctLoop, KeySet.empty]
  · have : s = [] := by
      cases s with
      | nil => rfl
      | cons a t => simp at *
    subst this
    simp

theorem nodup_Distinct {E : Type} [DecidableEq E] (s : List E) : (Distinct s).Nodup := by
  unfold Distinct
  split
  · exact nodup_distinctLoop s KeySet.empty [] List.nodup_nil (by simp)
  · exact List.nodup_nil

theorem keepFirstOccurrence_sublist {E : Type} [DecidableEq E] (s : List E) :
    (keepFirstOccurrence s).Sublist s := by
  unfold keepFirstOccurrence
  have h1 : (s.enum.filter (fun p => decide (s.indexOf p.2 = p.1))).Sublist s.enum :=
    List.filter_sublist _
  have h2 := h1.map Prod.snd
  simpa [List.enum] using h2

/-! ## Subtract and Intersect -/

theorem Subtract_eq_filter {E : Type} [DecidableEq E] (s1 s2 : List E) :
    Subtract s1 s2 = s1.filter (fun v => decide (v ∉ s2)) := by
  unfold Subtract
  split
  · rw [subtractLoop_eq]
    simp [mem_fillLoop, KeySet.empty]
  · have : s1 = [] := by
      cases s1 with
      | nil => rfl
      | cons a t => simp at *
    subst this
    rfl

theorem distinctLoop_filter {E : Type} [DecidableEq E] (p : E → Bool) (rest : List E)
    (m : KeySet E) (res : List E) :
    distinctLoop (rest.filter p) (m.filter p) (res.filter p)
      = (distinctLoop rest m res).filter p := by
  induction rest generalizing m res with
  | nil => simp [distinctLoop]
  | cons v rest ih =>
    by_cases hp : p v = true
    · rw [List.filter_cons_of_pos hp]
      by_cases h : v ∈ m
      · have h2 : v ∈ m.filter p := List.mem_filter.2 ⟨h, hp⟩
        simp only [distinctLoop, KeySet.found, h, h2, decide_True, Bool.not_true,
          Bool.false_eq_true, if_false]
        exact ih m res
      · have h2 : v ∉ m.filter p := fun hh => h (List.mem_filter.1 hh).1
        simp only [distinctLoop, KeySet.found, h, h2, decide_False, Bool.not_false, if_true,
          KeySet.store]
        rw [← ih]
        simp [List.filter_cons_of_pos hp, hp]
    · rw [List.filter_cons_of_neg hp]
      by_cases h : v ∈ m
      · simp only [distinctLoop, KeySet.found, h, decide_True, Bool.not_true,
          Bool.false_eq_true, if_false]
        exact ih m res
      · simp only [distinctLoop, KeySet.found, h, decide_False, Bool.not_false, if_true,
          KeySet.store]
        rw [← ih]
        simp [List.filter_cons_of_neg hp, hp]

theorem Distinct_filter {E : Type} [DecidableEq E] (p : E → Bool) (s : List E) :
    Distinct (s.filter p) = (Distinct s).filter p := by
  have key : ∀ t : List E, Distinct t = distinctLoop t KeySet.empty [] := by
    intro t
    cases t with
    | nil => rfl
    | cons a t => simp [Distinct]
  rw [key, key]
  simpa [KeySet.empty] using distinctLoop_filter p s [] []

theorem Intersect_eq {E : Type} [DecidableEq E] (s1 s2 : List E) :
    Intersect s1 s2 = Distinct (s1.filter (fun v => decide (v ∈ s2))) := by
  unfold Intersect
  split
  · rw [intersectLoop_eq]
    simp [mem_fillLoop, KeySet.empty]
  · rename_i h
    congr 1
    by_cases h1 : s1 = []
    · subst h1; rfl
    · have h2 : s2 = [] := by
        by_contra h2
        exact h ⟨List.length_pos.2 h1, List.length_pos.2 h2⟩
      subst h2
      simp

/-! ## Slices over a store -/

theorem length_view {E : Type} (m : Store E) (s : SliceHdr) (h : s.wf m) :
    (view m s).length = s.len := by
  unfold SliceHdr.wf at h
  simp only [view, List.length_take, List.length_drop]
  omega

theorem getElem?_view {E : Type} (m : Store E) (s : SliceHdr) (k : Nat) :
    (view m s)[k]? = if k < s.len then m[s.ptr + k]? else none := by
  unfold view
  rw [List.getElem?_take]
  split
  · rw [List.getElem?_drop]
  · rfl

theorem length_write {E : Type} (m : Store E) (p : Nat) (xs : List E)
    (h : p + xs.length ≤ m.length) : (write m p xs).length = m.length := by
  simp only [write, List.length_append, List.length_take, List.length_drop]
  omega

theorem getElem?_write {E : Type} (m : Store E) (p : Nat) (xs : List E)
    (h : p + xs.length ≤ m.length) (k : Nat) :
    (write m p xs)[k]? =
      if k < p then m[k]? else if k < p + xs.length then xs[k - p]? else m[k]? := by
  unfold write
  have hp : (m.take p).length = p := by simp; omega
  split
  · rw [List.append_assoc, List.getElem?_append_left (by omega), List.getElem?_take]
    simp [*]
  · rw [List.append_assoc, List.getElem?_append_right (by omega), hp]
    split
    · rw [List.getElem?_append_left (by omega)]
    · rw [List.getElem?_append_right (by omega), List.getElem?_drop]
      congr 1
      omega

theorem view_write_disjoint {E : Type} (m : Store E) (p : Nat) (xs : List E) (u : SliceHdr)
    (h : p + xs.length ≤ m.length) (hd : u.ptr + u.len ≤ p ∨ p + xs.length ≤ u.ptr) :
    view (write m p xs) u = view m u := by
  apply List.ext_getElem?
  intro k
  rw [getElem?_view, getElem?_view]
  split
  · rw [getElem?_write m p xs h]
    split
    · rfl
    · split
      · omega
      · rfl
  · rfl

theorem view_write_same {E : Type} (m : Store E) (p c : Nat) (xs : List E)
    (h : p + xs.length ≤ m.length) : view (write m p xs) ⟨p, xs.length, c⟩ = xs := by
  apply List.ext_getElem?
  intro k
  rw [getElem?_view]
  split
  · rename_i hk
    simp only at hk
    rw [getElem?_write m p xs h]
    simp only
    rw [if_neg (by omega), if_pos (by omega)]
    congr 1
    omega
  · rename_i hk
    simp only at hk
    rw [List.getElem?_eq_none (by omega)]

theorem view_goAppend {E : Type} (m : Store E) (s t : SliceHdr) (hs : s.wf m) (ht : t.wf m) :
    view (goAppend m s t).1 (goAppend m s t).2 = view m s ++ view m t := by
  have hls := length_view m s hs
  have hlt := length_view m t ht
  unfold SliceHdr.wf at hs ht
  unfold goAppend
  split
  · rename_i hc
    simp only
    apply List.ext_getElem?
    intro k
    rw [getElem?_view]
    simp only
    have hw : s.ptr + s.len + (view m t).length ≤ m.length := by omega
    by_cases hk : k < s.len
    · rw [if_pos (by omega), getElem?_write m _ _ hw, if_pos (by omega),
        List.getElem?_append_left (by omega), getElem?_view, if_pos hk]
    · by_cases hk2 : k < s.len + t.len
      · rw [if_pos hk2, getElem?_write m _ _ hw, if_neg (by omega), if_pos (by omega),
          List.getElem?_append_right (by omega), hls]
        congr 1
        omega
      · rw [if_neg hk2, List.getElem?_eq_none]
        simp only [List.length_append]
        omega
  · simp only [view]
    rw [List.drop_left, List.take_of_length_le]
    have h1 := hls
    have h2 := hlt
    simp only [view] at h1 h2
    simp only [List.length_append, h1, h2]
    exact le_refl _

theorem view_goAppend_fst {E : Type} (m : Store E) (s t : SliceHdr) (hs : s.wf m)
    (ht : t.wf m) : view (goAppend m s t).1 s = view m s := by
  have hlt := length_view m t ht
  unfold SliceHdr.wf at hs ht
  unfold goAppend
  split
  · simp only
    apply view_write_disjoint
    · omega
    · exact Or.inl (le_refl _)
  · simp only [view]
    rw [List.drop_append_of_le_length (by omega), List.take_append_of_le_length]
    simp only [List.length_drop]
    omega

theorem view_goAppend_snd {E : Type} (m : Store E) (s t : SliceHdr) (hs : s.wf m)
    (ht : t.wf m)
    (hd : s.cap < s.len + t.len ∨ t.ptr + t.len ≤ s.ptr + s.len ∨
      s.ptr + s.len + t.len ≤ t.ptr) :
    view (goAppend m s t).1 t = view m t := by
  have hlt := length_view m t ht
  unfold SliceHdr.wf at hs ht
  unfold goAppend
  split
  · simp only
    apply view_write_disjoint
    · omega
    · omega
  · simp only [view]
    rw [List.drop_append_of_le_length (by omega), List.take_append_of_le_length]
    simp only [List.length_drop]
    omega

/-! ## Contracts of the set operations -/

/-- C1: `Distinct s` contains no value twice, contains exactly the values that occur in `s`,
and is the subsequence of `s` that keeps, for each value, only its first occurrence. -/
theorem Distinct_spec {E : Type} [DecidableEq E] (s : List E) :
    (Distinct s).Nodup ∧ (∀ x, x ∈ Distinct s ↔ x ∈ s) ∧
      Distinct s = keepFirstOccurrence s ∧ (Distinct s).Sublist s :=
  ⟨nodup_Distinct s, mem_Distinct s, Distinct_eq_keepFirstOccurrence s,
    Distinct_eq_keepFirstOccurrence s ▸ keepFirstOccurrence_sublist s⟩

/-- C4: `Subtract s1 s2` is `s1` with exactly the elements that occur in `s2` removed; what
remains is a subsequence of `s1` (same relative order) and every value absent from `s2`
keeps the multiplicity it has in `s1`. -/
theorem Subtract_spec {E : Type} [DecidableEq E] (s1 s2 : List E) :
    Subtract s1 s2 = s1.filter (fun v => decide (v ∉ s2)) ∧
      (Subtract s1 s2).Sublist s1 ∧
      (∀ x, x ∉ s2 → (Subtract s1 s2).count x = s1.count x) ∧
      (∀ x, x ∈ s2 → (Subtract s1 s2).count x = 0) := by
  rw [Subtract_eq_filter]
  refine ⟨rfl, List.filter_sublist _, ?_, ?_⟩
  · intro x hx
    exact List.count_filter (by simpa using hx)
  · intro x hx
    rw [List.count_eq_zero]
    intro hmem
    have := (List.mem_filter.1 hmem).2
    simp [hx] at this

/-- C5: a value occurs in `Intersect s1 s2` exactly when it occurs in `s1` and in `s2`;
`Intersect s1 s2` has no value twice; and it lists its values in the order of their first
occurrence in `s1`: it is the first-occurrence subsequence of `s1` restricted to the values
of `s2`. -/
theorem Intersect_spec {E : Type} [DecidableEq E] (s1 s2 : List E) :
    (∀ x, x ∈ Intersect s1 s2 ↔ x ∈ s1 ∧ x ∈ s2) ∧
      (Intersect s1 s2).Nodup ∧
      Intersect s1 s2 = (keepFirstOccurrence s1).filter (fun v => decide (v ∈ s2)) ∧
      (Intersect s1 s2).Sublist s1 := by
  rw [Intersect_eq]
  refine ⟨?_, nodup_Distinct _, ?_, ?_⟩
  · intro x
    rw [mem_Distinct, List.mem_filter]
    simp
  · rw [Distinct_filter, Distinct_eq_keepFirstOccurrence]
  · rw [Distinct_filter, Distinct_eq_keepFirstOccurrence]
    exact (List.filter_sublist _).trans (keepFirstOccurrence_sublist s1)

/-- C6: for well-formed argument slices, `Union` returns `Distinct` of the concatenation of
the elements of `s1` followed by those of `s2`: exactly the values occurring in `s1` or in
`s2`, each once, in the order of first occurrence in that concatenation. -/
theorem Union_spec {E : Type} [DecidableEq E] (m : Store E) (s1 s2 : SliceHdr)
    (h1 : s1.wf m) (h2 : s2.wf m) :
    (Union m s1 s2).2 = Distinct (view m s1 ++ view m s2) ∧
      (∀ x, x ∈ (Union m s1 s2).2 ↔ x ∈ view m s1 ∨ x ∈ view m s2) ∧
      (Union m s1 s2).2.Nodup ∧
      (Union m s1 s2).2 = keepFirstOccurrence (view m s1 ++ view m s2) := by
  have h : (Union m s1 s2).2 = Distinct (view m s1 ++ view m s2) := by
    simp only [Union]
    rw [view_goAppend m s1 s2 h1 h2]
  rw [h]
  refine ⟨rfl, ?_, nodup_Distinct _, Distinct_eq_keepFirstOccurrence _⟩
  intro x
  rw [mem_Distinct, List.mem_append]

/-- Witness for C6, with `s2` overlapping `s1` and its spare capacity. -/
theorem Union_spec_witness :
    (⟨0, 1, 4⟩ : SliceHdr).wf [1, 2, 3, 4] ∧ (⟨0, 2, 4⟩ : SliceHdr).wf [1, 2, 3, 4] ∧
      (Union [1, 2, 3, 4] ⟨0, 1, 4⟩ ⟨0, 2, 4⟩).2
        = Distinct (view [1, 2, 3, 4] ⟨0, 1, 4⟩ ++ view [1, 2, 3, 4] ⟨0, 2, 4⟩) :=
  ⟨by decide, by decide,
    (Union_spec [1, 2, 3, 4] ⟨0, 1, 4⟩ ⟨0, 2, 4⟩ (by decide) (by decide)).1⟩

/-! ## Delete -/

/-- C10: for a well-formed slice and `0 ≤ i < len(s)`, `Delete` does not panic and returns a
slice of length `len(s) - 1` whose element `j` is `s[j]` for `j < i` and `s[j+1]` for
`i ≤ j < len(s) - 1`. -/
theorem Delete_spec {E : Type} (m : Store E) (s : SliceHdr) (i : Int) (h : s.wf m)
    (hi0 : 0 ≤ i) (hi : i < (s.len : Int)) :
    ∃ m' r, Delete m s i = some (m', r) ∧ r.len = s.len - 1 ∧
      (view m' r).length = s.len - 1 ∧
      ∀ j : Nat, j < s.len - 1 →
        (view m' r)[j]? = if (j : Int) < i then (view m s)[j]? else (view m s)[j + 1]? := by
  obtain ⟨n, rfl⟩ := Int.eq_ofNat_of_zero_le hi0
  have hn : n < s.len := by exact_mod_cast hi
  have hwf := h
  unfold SliceHdr.wf at hwf
  have e1 : reslice s (n : Int) ((n : Int) + 1)
      = some ⟨s.ptr + n, 1, s.cap - n⟩ := by
    unfold reslice
    rw [if_pos (by omega)]
    simp
  have e2 : reslice s 0 (n : Int) = some ⟨s.ptr, n, s.cap⟩ := by
    unfold reslice
    rw [if_pos (by omega)]
    simp
  have e3 : reslice s ((n : Int) + 1) (s.len : Int)
      = some ⟨s.ptr + (n + 1), s.len - (n + 1), s.cap - (n + 1)⟩ := by
    unfold reslice
    rw [if_pos (by omega)]
    have t1 : ((n : Int) + 1).toNat = n + 1 := by omega
    have t2 : ((s.len : Int) - ((n : Int) + 1)).toNat = s.len - (n + 1) := by omega
    rw [t1, t2]
  have ha : (⟨s.ptr, n, s.cap⟩ : SliceHdr).wf m := by
    unfold SliceHdr.wf; simp only; omega
  have hb : (⟨s.ptr + (n + 1), s.len - (n + 1), s.cap - (n + 1)⟩ : SliceHdr).wf m := by
    unfold SliceHdr.wf; simp only; omega
  have hv := view_goAppend m _ _ ha hb
  have hla := length_view m _ ha
  have hlb := length_view m _ hb
  simp only at hla hlb
  refine ⟨(goAppend m ⟨s.ptr, n, s.cap⟩ ⟨s.ptr + (n + 1), s.len - (n + 1), s.cap - (n + 1)⟩).1,
    (goAppend m ⟨s.ptr, n, s.cap⟩ ⟨s.ptr + (n + 1), s.len - (n + 1), s.cap - (n + 1)⟩).2,
    ?_, ?_, ?_, ?_⟩
  · simp only [Delete, slicesDelete, e1, e2, e3]
  · unfold goAppend
    rw [if_pos (by simp only; omega)]
    simp only
    omega
  · rw [hv, List.length_append, hla, hlb]
    omega
  · intro j hj
    rw [hv]
    by_cases hjn : j < n
    · rw [if_pos (by exact_mod_cast hjn), List.getElem?_append_left (by omega),
        getElem?_view, getElem?_view]
      simp only
      rw [if_pos hjn, if_pos (by omega)]
    · rw [if_neg (by exact_mod_cast hjn), List.getElem?_append_right (by omega), hla,
        getElem?_view, getElem?_view]
      simp only
      rw [if_pos (by omega), if_pos (by omega)]
      congr 1
      omega

/-- Witness for C10: `Delete([10, 20, 30], 1)`. -/
theorem Delete_spec_witness :
    ∃ m' r, Delete [10, 20, 30] ⟨0, 3, 3⟩ 1 = some (m', r) ∧ r.len = 3 - 1 ∧
      (view m' r).length = 3 - 1 ∧
      ∀ j : Nat, j < 3 - 1 →
        (view m' r)[j]? = if (j : Int) < 1 then (view [10, 20, 30] ⟨0, 3, 3⟩)[j]?
          else (view [10, 20, 30] ⟨0, 3, 3⟩)[j + 1]? :=
  Delete_spec [10, 20, 30] ⟨0, 3, 3⟩ 1 (by decide) (by decide) (by decide)

/-! ## Decimal digits -/

theorem digitChar_facts : ∀ d, d < 10 →
    isDigit (digitChar d) = true ∧ (digitChar d).toNat - 48 = d ∧
      digitChar d ≠ '-' ∧ digitChar d ≠ '+' := by
  decide

theorem isDigit_not_sign (c : Char) (h : isDigit c = true) : c ≠ '-' ∧ c ≠ '+' := by
  constructor
  · rintro rfl
    revert h
    decide
  · rintro rfl
    revert h
    decide

theorem isDigit_toNat (c : Char) (h : isDigit c = true) : c.toNat - 48 < 10 := by
  unfold isDigit at h
  have h' := of_decide_eq_true h
  have h1 : (48 : Nat) ≤ c.toNat := by
    have := h'.1
    exact this
  have h2 : c.toNat ≤ 57 := by
    have := h'.2
    exact this
  omega

theorem digitsValue_append (xs ys : List Char) (n : Nat) :
    digitsValue (xs ++ ys) n = (digitsValue xs n).bind (fun v => digitsValue ys v) := by
  induction xs generalizing n with
  | nil => simp [digitsValue]
  | cons c xs ih =>
    simp only [List.cons_append, digitsValue]
    split
    · exact ih _
    · rfl

theorem digitsValue_bound (s : List Char) (n v : Nat) (h : digitsValue s n = some v) :
    n * 10 ^ s.length ≤ v ∧ v < (n + 1) * 10 ^ s.length := by
  induction s generalizing n with
  | nil =>
    simp only [digitsValue, Option.some.injEq] at h
    subst h
    simp
  | cons c s ih =>
    simp only [digitsValue] at h
    split at h
    · rename_i hc
      have hd := isDigit_toNat c hc
      have := ih _ h
      simp only [List.length_cons, pow_succ]
      constructor
      · calc n * (10 ^ s.length * 10) = (n * 10) * 10 ^ s.length := by ring
          _ ≤ (n * 10 + (c.toNat - 48)) * 10 ^ s.length := by
            apply Nat.mul_le_mul_right; omega
          _ ≤ v := this.1
      · calc v < (n * 10 + (c.toNat - 48) + 1) * 10 ^ s.length := this.2
          _ ≤ ((n + 1) * 10) * 10 ^ s.length := by
            apply Nat.mul_le_mul_right; omega
          _ = (n + 1) * (10 ^ s.length * 10) := by ring
    · exact absurd h (by simp)

theorem formatDigits_spec (fuel u : Nat) (acc : List Char) (h : u < 10 ^ fuel)
    (hf0 : 0 < fuel) :
    ∃ ds : List Char, formatDigits fuel u acc = ds ++ acc ∧
      (∃ c r, ds = c :: r ∧ isDigit c = true) ∧
      ∀ n, digitsValue ds n = some (n * 10 ^ ds.length + u) := by
  induction fuel generalizing u acc with
  | zero => exact absurd hf0 (by decide)
  | succ fuel ih =>
    unfold formatDigits
    split
    · rename_i hu
      have hlt : u / 10 < 10 ^ fuel := by
        rw [pow_succ] at h
        exact Nat.div_lt_of_lt_mul (by rw [Nat.mul_comm]; exact h)
      have hfuel : 0 < fuel := by
        rcases Nat.eq_zero_or_pos fuel with h0 | h0
        · subst h0
          simp at hlt
          omega
        · exact h0
      obtain ⟨ds, h1, ⟨c, r, h2, h3⟩, h4⟩ :=
        ih (u / 10) (digitChar (u % 10) :: acc) hlt hfuel
      have hf := digitChar_facts (u % 10) (Nat.mod_lt _ (by decide))
      refine ⟨ds ++ [digitChar (u % 10)], ?_, ⟨c, r ++ [digitChar (u % 10)], ?_, h3⟩, ?_⟩
      · rw [h1]; simp
      · rw [h2]; simp
      · intro n
        rw [digitsValue_append, h4]
        simp only [Option.some_bind, digitsValue, hf.1, if_true, hf.2.1, List.length_append,
          List.length_singleton, pow_succ, Option.some.injEq]
        have := Nat.div_add_mod u 10
        nlinarith [this]
    · rename_i hu
      have hf := digitChar_facts u (by omega)
      refine ⟨[digitChar u], rfl, ⟨_, _, rfl, hf.1⟩, ?_⟩
      intro n
      simp [digitsValue, hf.1, hf.2.1]

/-! ## `strconv.ParseUint`, `strconv.ParseInt`, `strconv.Atoi` -/

theorem atoiFastLoop_eq (s0 : GoString) (s : List Char) (n : Nat) :
    atoiFastLoop s0 s (n : Int) =
      match digitsValue s n with
      | some v => ((v : Int), none)
      | none => (0, some (syntaxError "Atoi" s0)) := by
  induction s generalizing n with
  | nil => simp [atoiFastLoop, digitsValue]
  | cons c s ih =>
    by_cases hc : isDigit c = true
    · simp only [atoiFastLoop, digitsValue, hc, Bool.not_true, Bool.false_eq_true, if_false,
        if_true]
      have := ih (n * 10 + (c.toNat - 48))
      rw [← this]
      congr 1
    · simp [atoiFastLoop, digitsValue, hc]

theorem parseUintLoop_some (maxVal : Nat) (s0 : GoString) (s : List Char) (n v : Nat)
    (hmax : maxVal < 2 ^ 64) (hn : n ≤ maxVal) (h : digitsValue s n = some v) :
    parseUintLoop maxVal s0 s n =
      if v ≤ maxVal then (v, none) else (maxVal, some (rangeError "ParseUint" s0)) := by
  induction s generalizing n with
  | nil =>
    simp only [digitsValue, Option.some.injEq] at h
    subst h
    simp [parseUintLoop, hn]
  | cons c s ih =>
    simp only [digitsValue] at h
    split at h
    · rename_i hc
      have hd := isDigit_toNat c hc
      have hb := (digitsValue_bound s _ v h).1
      have hpos : 1 ≤ 10 ^ s.length := Nat.one_le_pow _ _ (by decide)
      have hv : n * 10 + (c.toNat - 48) ≤ v :=
        le_trans (by nlinarith) hb
      simp only [parseUintLoop, hc, Bool.not_true, Bool.false_eq_true, if_false]
      by_cases h1 : n ≥ (2 ^ 64 - 1) / 10 + 1
      · rw [if_pos h1, if_neg]
        norm_num at h1 hmax
        omega
      · rw [if_neg h1]
        have h10 : n * 10 % 2 ^ 64 = n * 10 := by
          apply Nat.mod_eq_of_lt
          norm_num at h1 ⊢
          omega
        rw [h10]
        by_cases h2 : n * 10 + (c.toNat - 48) < 2 ^ 64
        · rw [Nat.mod_eq_of_lt h2]
          by_cases h3 : n * 10 + (c.toNat - 48) > maxVal
          · rw [if_pos (Or.inr h3), if_neg]
            omega
          · rw [if_neg (by omega)]
            exact ih _ (by omega) h
        · have hm : (n * 10 + (c.toNat - 48)) % 2 ^ 64 = n * 10 + (c.toNat - 48) - 2 ^ 64 := by
            rw [Nat.mod_eq_sub_mod (by omega)]
            apply Nat.mod_eq_of_lt
            norm_num at h1 ⊢
            omega
          rw [hm, if_pos, if_neg]
          · omega
          · left
            norm_num at h1 h2 ⊢
            omega
    · exact absurd h (by simp)

theorem parseUintLoop_none (maxVal : Nat) (s0 : GoString) (s : List Char) (n : Nat)
    (h : digitsValue s n = none) :
    parseUintLoop maxVal s0 s n = (0, some (syntaxError "ParseUint" s0)) ∨
      parseUintLoop maxVal s0 s n = (maxVal, some (rangeError "ParseUint" s0)) := by
  induction s generalizing n with
  | nil => simp [digitsValue] at h
  | cons c s ih =>
    simp only [digitsValue] at h
    by_cases hc : isDigit c = true
    · rw [if_pos hc] at h
      simp only [parseUintLoop, hc, Bool.not_true, Bool.false_eq_true, if_false]
      have hd := isDigit_toNat c hc
      by_cases h1 : n ≥ (2 ^ 64 - 1) / 10 + 1
      · rw [if_pos h1]
        exact Or.inr rfl
      · rw [if_neg h1]
        have h10 : n * 10 % 2 ^ 64 = n * 10 := by
          apply Nat.mod_eq_of_lt
          norm_num at h1 ⊢
          omega
        rw [h10]
        by_cases h2 : n * 10 + (c.toNat - 48) < 2 ^ 64
        · rw [Nat.mod_eq_of_lt h2]
          split
          · exact Or.inr rfl
          · exact ih _ h
        · have hm : (n * 10 + (c.toNat - 48)) % 2 ^ 64 = n * 10 + (c.toNat - 48) - 2 ^ 64 := by
            rw [Nat.mod_eq_sub_mod (by omega)]
            apply Nat.mod_eq_of_lt
            norm_num at h1 ⊢
            omega
          rw [hm, if_pos]
          · exact Or.inr rfl
          · left
            norm_num at h1 h2 ⊢
            omega
    · left
      simp [parseUintLoop, hc]

/-- The outcome of `ParseInt`'s second half on what `ParseUint` returns for `s`, in terms
of the number the digits of `s` denote. -/
theorem parseIntCheck_ParseUint (intSize : Nat) (hsz : intSize = 32 ∨ intSize = 64)
    (neg : Bool) (s0 s : GoString) :
    (∀ v, s ≠ [] → digitsValue s 0 = some v →
        (int intSize).inRange (if neg then -(v : Int) else (v : Int)) →
        parseIntCheck intSize neg s0 (ParseUint s intSize)
          = (if neg then -(v : Int) else (v : Int), none)) ∧
      ((s = [] ∨ digitsValue s 0 = none ∨
          ∃ v, digitsValue s 0 = some v ∧
            ¬ (int intSize).inRange (if neg then -(v : Int) else (v : Int))) →
        ∃ i k, parseIntCheck intSize neg s0 (ParseUint s intSize)
          = (i, some ⟨"ParseInt", s0, k⟩)) := by
  have hmax : 2 ^ intSize - 1 < 2 ^ 64 := by
    rcases hsz with h | h <;> subst h <;> norm_num
  have hsyn : ∃ i k, parseIntCheck intSize neg s0 (0, some (syntaxError "ParseUint" s))
      = (i, some ⟨"ParseInt", s0, k⟩) := ⟨_, _, rfl⟩
  have hrng : ∃ i k, parseIntCheck intSize neg s0
      (2 ^ intSize - 1, some (rangeError "ParseUint" s)) = (i, some ⟨"ParseInt", s0, k⟩) := by
    simp only [parseIntCheck, rangeError]
    have hgt : 2 ^ intSize - 1 > 2 ^ (intSize - 1) := by
      rcases hsz with h | h <;> subst h <;> norm_num
    cases neg
    · rw [if_pos ⟨rfl, le_of_lt hgt⟩]
      exact ⟨_, _, rfl⟩
    · rw [if_neg (by simp), if_pos ⟨rfl, hgt⟩]
      exact ⟨_, _, rfl⟩
  constructor
  · intro v hs hv hr
    unfold ParseUint
    rw [if_neg hs, parseUintLoop_some _ s s 0 v hmax (Nat.zero_le _) hv]
    simp only [IntType.inRange, int, if_true] at hr
    cases neg
    · simp only [Bool.false_eq_true, if_false] at hr ⊢
      have hv2 : v < 2 ^ (intSize - 1) := by exact_mod_cast hr.2
      rw [if_pos]
      · simp only [parseIntCheck]
        rw [if_neg (by omega), if_neg (by simp)]
        rfl
      · rcases hsz with h | h <;> subst h <;> norm_num at hv2 ⊢ <;> omega
    · simp only [if_true] at hr ⊢
      have hv2 : v ≤ 2 ^ (intSize - 1) := by
        have := hr.1
        have h3 : ((v : Nat) : Int) ≤ ((2 ^ (intSize - 1) : Nat) : Int) := by
          push_cast
          linarith
        exact_mod_cast h3
      rw [if_pos]
      · simp only [parseIntCheck]
        rw [if_neg (by simp), if_neg (by omega)]
        rfl
      · rcases hsz with h | h <;> subst h <;> norm_num at hv2 ⊢ <;> omega
  · rintro (hs | hn | ⟨v, hv, hr⟩)
    · unfold ParseUint
      rw [if_pos hs]
      exact hsyn
    · by_cases hs : s = []
      · unfold ParseUint
        rw [if_pos hs]
        exact hsyn
      · unfold ParseUint
        rw [if_neg hs]
        rcases parseUintLoop_none (2 ^ intSize - 1) s s 0 hn with h | h
        · rw [h]; exact hsyn
        · rw [h]; exact hrng
    · by_cases hs : s = []
      · unfold ParseUint
        rw [if_pos hs]
        exact hsyn
      · unfold ParseUint
        rw [if_neg hs, parseUintLoop_some _ s s 0 v hmax (Nat.zero_le _) hv]
        split
        · rename_i hle
          simp only [IntType.inRange, int, if_true] at hr
          simp only [parseIntCheck]
          cases neg
          · simp only [Bool.false_eq_true, if_false] at hr
            have hv2 : 2 ^ (intSize - 1) ≤ v := by
              by_contra hlt
              apply hr
              refine ⟨?_, by exact_mod_cast (not_le.1 hlt)⟩
              have : (0 : Int) ≤ (2 : Int) ^ (intSize - 1) := by positivity
              have h0 : (0 : Int) ≤ (v : Int) := Int.ofNat_nonneg v
              linarith
            rw [if_pos ⟨rfl, hv2⟩]
            exact ⟨_, _, rfl⟩
          · simp only [if_true] at hr
            have hv2 : 2 ^ (intSize - 1) < v := by
              by_contra hlt
              apply hr
              have h3 : ((v : Nat) : Int) ≤ ((2 ^ (intSize - 1) : Nat) : Int) := by
                exact_mod_cast (not_lt.1 hlt)
              push_cast at h3
              have h0 : (0 : Int) ≤ (v : Int) := Int.ofNat_nonneg v
              have : (0 : Int) < (2 : Int) ^ (intSize - 1) := by positivity
              constructor <;> linarith
            rw [if_neg (by simp), if_pos ⟨rfl, hv2⟩]
            exact ⟨_, _, rfl⟩
        · exact hrng

theorem decimalValue_cons (c : Char) (r : List Char) :
    decimalValue (c :: r) =
      if (if c = '+' ∨ c = '-' then r else c :: r) = [] then none
      else (digitsValue (if c = '+' ∨ c = '-' then r else c :: r) 0).map
        (fun n => if decide (c = '-') = true then -(n : Int) else (n : Int)) := by
  unfold decimalValue
  by_cases h1 : c = '-'
  · subst h1
    simp
  · by_cases h2 : c = '+'
    · subst h2
      simp
    · simp [h1, h2]

theorem intValue_cons_some (intSize : Nat) (c : Char) (r : List Char) (v : Int)
    (h : intValue intSize (c :: r) = some v) :
    (if c = '+' ∨ c = '-' then r else c :: r) ≠ [] ∧
      ∃ w, digitsValue (if c = '+' ∨ c = '-' then r else c :: r) 0 = some w ∧
        v = (if decide (c = '-') = true then -(w : Int) else (w : Int)) ∧
        (int intSize).inRange v := by
  unfold intValue at h
  rw [decimalValue_cons] at h
  generalize (if c = '+' ∨ c = '-' then r else c :: r) = t at h ⊢
  by_cases hs : t = []
  · rw [if_pos hs] at h
    simp at h
  · rw [if_neg hs] at h
    refine ⟨hs, ?_⟩
    cases hd : digitsValue t 0 with
    | none => rw [hd] at h; simp at h
    | some w =>
      rw [hd] at h
      change (if (int intSize).inRange (if decide (c = '-') = true then -(w : Int) else (w : Int))
        then some (if decide (c = '-') = true then -(w : Int) else (w : Int)) else none)
        = some v at h
      refine ⟨w, rfl, ?_⟩
      generalize (if decide (c = '-') = true then -(w : Int) else (w : Int)) = sv at h ⊢
      by_cases hr : (int intSize).inRange sv
      · rw [if_pos hr] at h
        simp only [Option.some.injEq] at h
        subst h
        exact ⟨rfl, hr⟩
      · rw [if_neg hr] at h
        simp at h

theorem intValue_cons_none (intSize : Nat) (c : Char) (r : List Char)
    (h : intValue intSize (c :: r) = none) :
    (if c = '+' ∨ c = '-' then r else c :: r) = [] ∨
      digitsValue (if c = '+' ∨ c = '-' then r else c :: r) 0 = none ∨
      ∃ w, digitsValue (if c = '+' ∨ c = '-' then r else c :: r) 0 = some w ∧
        ¬ (int intSize).inRange (if decide (c = '-') = true then -(w : Int) else (w : Int)) := by
  unfold intValue at h
  rw [decimalValue_cons] at h
  generalize (if c = '+' ∨ c = '-' then r else c :: r) = t at h ⊢
  by_cases hs : t = []
  · exact Or.inl hs
  · rw [if_neg hs] at h
    cases hd : digitsValue t 0 with
    | none => exact Or.inr (Or.inl rfl)
    | some w =>
      rw [hd] at h
      change (if (int intSize).inRange (if decide (c = '-') = true then -(w : Int) else (w : Int))
        then some (if decide (c = '-') = true then -(w : Int) else (w : Int)) else none)
        = none at h
      refine Or.inr (Or.inr ⟨w, rfl, ?_⟩)
      generalize (if decide (c = '-') = true then -(w : Int) else (w : Int)) = sv at h ⊢
      by_cases hr : (int intSize).inRange sv
      · rw [if_pos hr] at h
        simp at h
      · exact hr

/-- Correctness of `ParseInt(s, 10, 0)`: it returns the integer `s` denotes when that is a
value of `int`, and an error otherwise. -/
theorem ParseInt_spec (intSize : Nat) (hsz : intSize = 32 ∨ intSize = 64) (s : GoString) :
    (∀ v, intValue intSize s = some v → ParseInt intSize s = (v, none)) ∧
      (intValue intSize s = none →
        ∃ i k, ParseInt intSize s = (i, some ⟨"ParseInt", s, k⟩)) := by
  cases s with
  | nil =>
    refine ⟨fun v h => ?_, fun _ => ⟨_, _, rfl⟩⟩
    simp [intValue, decimalValue] at h
  | cons c r =>
    have key := parseIntCheck_ParseUint intSize hsz (decide (c = '-')) (c :: r)
      (if c = '+' ∨ c = '-' then r else c :: r)
    constructor
    · intro v h
      obtain ⟨hs, w, hw, hv, hr⟩ := intValue_cons_some intSize c r v h
      subst hv
      exact key.1 w hs hw hr
    · intro h
      exact key.2 (intValue_cons_none intSize c r h)

theorem conv_of_inRange (E : IntType) (hE : E.valid) (x : Int) (h : E.inRange x) :
    E.conv x = x := by
  obtain ⟨sg, b⟩ := E
  simp only [IntType.valid] at hE
  simp only [IntType.inRange] at h
  simp only [IntType.conv]
  cases sg
  · simp only [Bool.false_eq_true, if_false] at h ⊢
    exact Int.emod_eq_of_lt h.1 h.2
  · simp only [if_true] at h ⊢
    have hp : (2 : Int) ^ b = (2 : Int) ^ (b - 1) + (2 : Int) ^ (b - 1) := by
      have hb : b = (b - 1) + 1 := by omega
      conv_lhs => rw [hb, pow_succ]
      ring
    rw [Int.emod_eq_of_lt (by linarith) (by linarith)]
    ring

theorem int_valid (intSize : Nat) (hsz : intSize = 32 ∨ intSize = 64) : (int intSize).valid := by
  rcases hsz with h | h <;> subst h <;> decide

/-- Correctness of `Atoi(s)`: it returns the integer `s` denotes when that is a value of
`int`, and an error naming `Atoi` and `s` otherwise. -/
theorem Atoi_spec (intSize : Nat) (hsz : intSize = 32 ∨ intSize = 64) (s : GoString) :
    (∀ v, intValue intSize s = some v → Atoi intSize s = (v, none)) ∧
      (intValue intSize s = none → ∃ i k, Atoi intSize s = (i, some ⟨"Atoi", s, k⟩)) := by
  unfold Atoi
  split
  · rename_i hfast
    cases s with
    | nil => simp at hfast
    | cons c r =>
      have hsame : (if c = '-' ∨ c = '+' then r else c :: r)
          = (if c = '+' ∨ c = '-' then r else c :: r) := by
        by_cases h1 : c = '-' <;> by_cases h2 : c = '+' <;> simp [h1, h2]
      simp only [hsame]
      have hlen : (if c = '+' ∨ c = '-' then r else c :: r).length ≤ (c :: r).length := by
        split <;> simp
      constructor
      · intro v h
        obtain ⟨hs, w, hw, hv, hr⟩ := intValue_cons_some intSize c r v h
        rw [if_neg (by
          have := List.length_pos.2 hs
          omega)]
        have := atoiFastLoop_eq (c :: r) (if c = '+' ∨ c = '-' then r else c :: r) 0
        simp only [Nat.cast_zero] at this
        rw [this, hw]
        simp only
        subst hv
        by_cases h1 : c = '-' <;> simp [h1]
      · intro h
        by_cases hs : (if c = '+' ∨ c = '-' then r else c :: r).length < 1
        · rw [if_pos hs]
          exact ⟨_, _, rfl⟩
        · rw [if_neg hs]
          have hne : (if c = '+' ∨ c = '-' then r else c :: r) ≠ [] := by
            intro h0
            rw [h0] at hs
            simp at hs
          have heq := atoiFastLoop_eq (c :: r) (if c = '+' ∨ c = '-' then r else c :: r) 0
          simp only [Nat.cast_zero] at heq
          rw [heq]
          rcases intValue_cons_none intSize c r h with h0 | h0 | ⟨w, hw, hr⟩
          · exact absurd h0 hne
          · rw [h0]
            exact ⟨_, _, rfl⟩
          · exfalso
            apply hr
            have hb := (digitsValue_bound _ 0 w hw).2
            simp only [zero_add, one_mul] at hb
            simp only [IntType.inRange, int, if_true]
            have hw0 : (0 : Int) ≤ (w : Int) := Int.ofNat_nonneg w
            rcases hfast with ⟨h32, _, hl⟩ | ⟨h64, _, hl⟩
            · subst h32
              have h9 : w < 10 ^ 9 :=
                lt_of_lt_of_le hb (Nat.pow_le_pow_right (by decide) (by omega))
              have h9' : (w : Int) < 10 ^ 9 := by exact_mod_cast h9
              norm_num at h9' ⊢
              split <;> constructor <;> omega
            · subst h64
              have h18 : w < 10 ^ 18 :=
                lt_of_lt_of_le hb (Nat.pow_le_pow_right (by decide) (by omega))
              have h18' : (w : Int) < 10 ^ 18 := by exact_mod_cast h18
              norm_num at h18' ⊢
              split <;> constructor <;> omega
  · have hp := ParseInt_spec intSize hsz s
    constructor
    · intro v h
      rw [hp.1 v h]
      simp only
      have hr : (int intSize).inRange v := by
        unfold intValue at h
        cases hd : decimalValue s with
        | none => rw [hd] at h; simp at h
        | some u =>
          rw [hd] at h
          simp only [Option.some_bind] at h
          split at h
          · rename_i hu
            simp only [Option.some.injEq] at h
            subst h
            exact hu
          · simp at h
      rw [conv_of_inRange _ (int_valid intSize hsz) v hr]
    · intro h
      obtain ⟨i, k, hik⟩ := hp.2 h
      rw [hik]
      exact ⟨_, _, rfl⟩

/-! ## `FormatInt` -/

theorem decimalValue_FormatInt (i : Int) (h : i.natAbs < 10 ^ 20) :
    decimalValue (FormatInt i) = some i := by
  obtain ⟨ds, h1, ⟨c, r, h2, h3⟩, h4⟩ := formatDigits_spec 20 i.natAbs [] h (by decide)
  rw [List.append_nil] at h1
  have hv : digitsValue ds 0 = some i.natAbs := by
    rw [h4 0]; simp
  unfold FormatInt
  by_cases hneg : i < 0
  · rw [if_pos hneg, h1]
    have hne : ds ≠ [] := by rw [h2]; simp
    have ha : (i.natAbs : Int) = -i := Int.ofNat_natAbs_of_nonpos (le_of_lt hneg)
    simp [decimalValue, hne, hv, ha]
  · rw [if_neg hneg, h1]
    have hs := isDigit_not_sign c h3
    rw [h2] at hv ⊢
    have ha : (i.natAbs : Int) = i := Int.natAbs_of_nonneg (not_lt.1 hneg)
    simp [decimalValue, hs.1, hs.2, hv, ha]

theorem int64_conv_inRange (x : Int) : int64.inRange (int64.conv x) := by
  simp only [int64, IntType.conv, IntType.inRange, if_true]
  norm_num
  omega

theorem conv_int64_conv (E : IntType) (hE : E.valid) (x : Int) (h : E.inRange x) :
    E.conv (int64.conv x) = x := by
  obtain ⟨sg, b⟩ := E
  simp only [IntType.valid] at hE
  simp only [IntType.inRange] at h
  simp only [IntType.conv, int64, if_true]
  cases sg
  · simp only [Bool.false_eq_true, if_false] at h ⊢
    rcases hE with hb | hb | hb | hb <;> subst hb <;> norm_num at h ⊢ <;> omega
  · simp only [if_true] at h ⊢
    rcases hE with hb | hb | hb | hb <;> subst hb <;> norm_num at h ⊢ <;> omega

theorem intValue_FormatInt (intSize : Nat) (i : Int) (h64 : int64.inRange i)
    (hint : (int intSize).inRange i) : intValue intSize (FormatInt i) = some i := by
  unfold intValue
  rw [decimalValue_FormatInt i ?_]
  · simp [hint]
  · simp only [int64, IntType.inRange, if_true] at h64
    norm_num at h64 ⊢
    omega

/-! ## The loops of `IntToString` and `StringToInt` -/

theorem intToStringLoop_eq (s : List Int) (res : List GoString) :
    intToStringLoop s res = res ++ s.map (fun x => FormatInt (int64.conv x)) := by
  induction s generalizing res with
  | nil => simp [intToStringLoop]
  | cons x rest ih => simp [intToStringLoop, ih]

theorem IntToString_eq (s : List Int) :
    IntToString s = s.map (fun x => FormatInt (int64.conv x)) := by
  simp [IntToString, intToStringLoop_eq]

theorem stringToIntLoop_ok (intSize : Nat) (E : IntType) (rest : List GoString)
    (res : List Int) (h : ∀ x ∈ rest, (Atoi intSize x).2 = none) :
    stringToIntLoop intSize E rest res
      = (res ++ rest.map (fun x => E.conv (Atoi intSize x).1), none) := by
  induction rest generalizing res with
  | nil => simp [stringToIntLoop]
  | cons x rest ih =>
    have hx := h x (List.mem_cons_self _ _)
    unfold stringToIntLoop
    cases ha : Atoi intSize x with
    | mk val err =>
      rw [ha] at hx
      simp only at hx
      subst hx
      simp only
      rw [ih _ (fun y hy => h y (List.mem_cons_of_mem _ hy))]
      simp [ha]

theorem stringToIntLoop_err (intSize : Nat) (E : IntType) (pre : List GoString)
    (x : GoString) (post : List GoString) (res : List Int) (e : NumError)
    (hpre : ∀ y ∈ pre, (Atoi intSize y).2 = none) (hx : (Atoi intSize x).2 = some e) :
    stringToIntLoop intSize E (pre ++ x :: post) res = ([], some e) := by
  induction pre generalizing res with
  | nil =>
    simp only [List.nil_append]
    unfold stringToIntLoop
    cases ha : Atoi intSize x with
    | mk val err =>
      rw [ha] at hx
      simp only at hx
      subst hx
      rfl
  | cons y pre ih =>
    have hy := hpre y (List.mem_cons_self _ _)
    simp only [List.cons_append]
    unfold stringToIntLoop
    cases ha : Atoi intSize y with
    | mk val err =>
      rw [ha] at hy
      simp only at hy
      subst hy
      simp only
      exact ih _ (fun z hz => hpre z (List.mem_cons_of_mem _ hz))

theorem first_failure (intSize : Nat) (s : List GoString) :
    (∀ x ∈ s, (Atoi intSize x).2 = none) ∨
      ∃ pre x post e, s = pre ++ x :: post ∧ (∀ y ∈ pre, (Atoi intSize y).2 = none) ∧
        (Atoi intSize x).2 = some e := by
  induction s with
  | nil => left; simp
  | cons a s ih =>
    cases ha : (Atoi intSize a).2 with
    | some e => exact Or.inr ⟨[], a, s, e, rfl, by simp, ha⟩
    | none =>
      rcases ih with h | ⟨pre, x, post, e, h1, h2, h3⟩
      · left
        intro x hx
        rcases List.mem_cons.1 hx with rfl | hx
        · exact ha
        · exact h x hx
      · right
        refine ⟨a :: pre, x, post, e, by rw [h1]; rfl, ?_, h3⟩
        intro y hy
        rcases List.mem_cons.1 hy with rfl | hy
        · exact ha
        · exact h2 y hy

theorem Atoi_error_iff (intSize : Nat) (hsz : intSize = 32 ∨ intSize = 64) (x : GoString) :
    (Atoi intSize x).2 ≠ none ↔ intValue intSize x = none := by
  have h := Atoi_spec intSize hsz x
  cases hv : intValue intSize x with
  | none =>
    obtain ⟨i, k, hik⟩ := h.2 hv
    simp [hik]
  | some v =>
    rw [h.1 v hv]
    simp

/-! ## Contracts of the conversions -/

/-- C2, counterexample: where `int` is 32 bits wide, `StringToInt[int64]` applied to
`IntToString([2147483648])`, that is to `["2147483648"]`, returns a range error and no
sequence. -/
theorem roundtrip_fails_int32 :
    int64.inRange 2147483648 ∧
      IntToString [2147483648] = ["2147483648".toList] ∧
      StringToInt 32 int64 (IntToString [2147483648])
        = ([], some ⟨"Atoi", "2147483648".toList, ErrKind.ErrRange⟩) := by
  decide

/-- C2, amended: for every integer type `E` and every sequence `s` of values of `E`, where
`int` is 64 bits wide, or where every element converted to `int64` is a value of `int`,
`StringToInt[E](IntToString(s))` returns no error and returns `s`. -/
theorem StringToInt_IntToString (intSize : Nat) (hsz : intSize = 32 ∨ intSize = 64)
    (E : IntType) (hE : E.valid) (s : List Int) (hs : ∀ x ∈ s, E.inRange x)
    (hint : intSize = 64 ∨ ∀ x ∈ s, (int intSize).inRange (int64.conv x)) :
    StringToInt intSize E (IntToString s) = (s, none) := by
  have hint2 : ∀ x ∈ s, (int intSize).inRange (int64.conv x) := by
    rcases hint with h | h
    · subst h
      intro x _
      exact int64_conv_inRange x
    · exact h
  have hA : ∀ x ∈ s, Atoi intSize (FormatInt (int64.conv x)) = (int64.conv x, none) := by
    intro x hx
    exact (Atoi_spec intSize hsz _).1 _
      (intValue_FormatInt intSize _ (int64_conv_inRange x) (hint2 x hx))
  unfold StringToInt
  rw [IntToString_eq, stringToIntLoop_ok]
  · simp only [List.nil_append, List.map_map, Prod.mk.injEq, and_true]
    conv_rhs => rw [← List.map_id s]
    apply List.map_congr_left
    intro x hx
    simp only [Function.comp, hA x hx, id]
    exact conv_int64_conv E hE x (hs x hx)
  · intro y hy
    obtain ⟨x, hx, rfl⟩ := List.mem_map.1 hy
    rw [hA x hx]

/-- Witness for C2 (amended): `uint64`, `int` of 64 bits, `s = [18446744073709551615, 7]`. -/
theorem StringToInt_IntToString_witness :
    StringToInt 64 ⟨false, 64⟩ (IntToString [18446744073709551615, 7])
      = ([18446744073709551615, 7], none) :=
  StringToInt_IntToString 64 (Or.inr rfl) ⟨false, 64⟩ (by decide)
    [18446744073709551615, 7] (by decide) (Or.inl rfl)

/-- C3: `StringToInt(s)` returns an error exactly when `strconv.Atoi` fails on some element
of `s`, which is when some element does not denote a base-10 integer that is a value of
`int`; the error is then the one `strconv.Atoi` gives for the first such element (every
element before it parses), and the returned sequence is nil. -/
theorem StringToInt_error (intSize : Nat) (hsz : intSize = 32 ∨ intSize = 64) (E : IntType)
    (s : List GoString) :
    ((StringToInt intSize E s).2 ≠ none ↔ ∃ x ∈ s, (Atoi intSize x).2 ≠ none) ∧
      ((StringToInt intSize E s).2 ≠ none ↔ ∃ x ∈ s, intValue intSize x = none) ∧
      ∀ e, (StringToInt intSize E s).2 = some e →
        (StringToInt intSize E s).1 = [] ∧
        ∃ pre x post, s = pre ++ x :: post ∧
          (∀ y ∈ pre, (Atoi intSize y).2 = none ∧ intValue intSize y ≠ none) ∧
          (Atoi intSize x).2 = some e ∧ intValue intSize x = none := by
  have hiff : (StringToInt intSize E s).2 ≠ none ↔
      ∃ x ∈ s, (Atoi intSize x).2 ≠ none := by
    rcases first_failure intSize s with h | ⟨pre, x, post, e, h1, h2, h3⟩
    · unfold StringToInt
      rw [stringToIntLoop_ok intSize E s [] h]
      simp only [ne_eq, not_true_eq_false, false_iff, not_exists, not_and, not_not]
      exact h
    · unfold StringToInt
      rw [h1, stringToIntLoop_err intSize E pre x post [] e h2 h3]
      simp only [ne_eq, reduceCtorEq, not_false_eq_true, true_iff]
      exact ⟨x, by simp, by rw [h3]; simp⟩
  refine ⟨hiff, ?_, ?_⟩
  · rw [hiff]
    constructor
    · rintro ⟨x, hx, h⟩
      exact ⟨x, hx, (Atoi_error_iff intSize hsz x).1 h⟩
    · rintro ⟨x, hx, h⟩
      exact ⟨x, hx, (Atoi_error_iff intSize hsz x).2 h⟩
  · intro e he
    rcases first_failure intSize s with h | ⟨pre, x, post, e', h1, h2, h3⟩
    · unfold StringToInt at he
      rw [stringToIntLoop_ok intSize E s [] h] at he
      simp at he
    · have hres : StringToInt intSize E s = ([], some e') := by
        unfold StringToInt
        rw [h1, stringToIntLoop_err intSize E pre x post [] e' h2 h3]
      rw [hres] at he ⊢
      simp only [Option.some.injEq] at he
      subst he
      refine ⟨rfl, pre, x, post, h1, ?_, h3, ?_⟩
      · intro y hy
        refine ⟨h2 y hy, ?_⟩
        intro hn
        exact (Atoi_error_iff intSize hsz y).2 hn (h2 y hy)
      · apply (Atoi_error_iff intSize hsz x).1
        rw [h3]
        simp

/-- Witness for C3: `StringToInt(["1", "x", "3"])`. -/
theorem StringToInt_error_witness :
    (StringToInt 64 int64 ["1".toList, "x".toList, "3".toList]).2
        = some ⟨"Atoi", "x".toList, ErrKind.ErrSyntax⟩ ∧
      ((StringToInt 64 int64 ["1".toList, "x".toList, "3".toList]).2 ≠ none ↔
        ∃ x ∈ ["1".toList, "x".toList, "3".toList], (Atoi 64 x).2 ≠ none) :=
  ⟨by decide,
    (StringToInt_error 64 (Or.inr rfl) int64 ["1".toList, "x".toList, "3".toList]).1⟩

/-- C8, failing input: for the `uint64` value 18446744073709551615, `IntToString` returns
`"-1"`, which denotes -1 and is not the decimal representation of 18446744073709551615. -/
theorem IntToString_uint64_max :
    (⟨false, 64⟩ : IntType).inRange 18446744073709551615 ∧
      IntToString [18446744073709551615] = ["-1".toList] ∧
      decimalValue "-1".toList = some (-1) ∧
      decimalValue "18446744073709551615".toList = some 18446744073709551615 := by
  decide

/-- The function `IntToString` on values that `int64` holds: the result has the length of
`s` and its `i`-th element denotes, in base 10, the value of `s[i]`. -/
theorem IntToString_of_int64 (s : List Int) (h : ∀ x ∈ s, int64.inRange x) :
    (IntToString s).length = s.length ∧ (IntToString s).map decimalValue = s.map some := by
  rw [IntToString_eq]
  refine ⟨by simp, ?_⟩
  rw [List.map_map]
  apply List.map_congr_left
  intro x hx
  have hx' := h x hx
  simp only [Function.comp, conv_of_inRange int64 (by decide) x hx']
  apply decimalValue_FormatInt
  simp only [int64, IntType.inRange, if_true] at hx'
  norm_num at hx' ⊢
  omega

/-- C9, counterexample: `"300"` denotes 300, and `StringToInt[int8](["300"])` returns
`[44]` without an error; `"9223372036854775808"` denotes an integer, and `StringToInt[int64]`
returns an error for it. -/
theorem StringToInt_out_of_range :
    decimalValue "300".toList = some 300 ∧
      StringToInt 64 ⟨true, 8⟩ ["300".toList] = ([44], none) ∧
      decimalValue "9223372036854775808".toList = some 9223372036854775808 ∧
      StringToInt 64 int64 ["9223372036854775808".toList]
        = ([], some ⟨"Atoi", "9223372036854775808".toList, ErrKind.ErrRange⟩) := by
  decide

/-- C9, amended: for every integer type `E` and every sequence `s` of strings each of which
denotes, in base 10, an integer that is a value of `int` and of `E`, `StringToInt[E](s)`
returns no error and a sequence of the length of `s` whose `i`-th element is the integer
that `s[i]` denotes. -/
theorem StringToInt_values (intSize : Nat) (hsz : intSize = 32 ∨ intSize = 64)
    (E : IntType) (hE : E.valid) (s : List GoString)
    (h : ∀ x ∈ s, ∃ v, decimalValue x = some v ∧ (int intSize).inRange v ∧ E.inRange v) :
    (StringToInt intSize E s).2 = none ∧
      (StringToInt intSize E s).1.length = s.length ∧
      (StringToInt intSize E s).1.map some = s.map decimalValue := by
  have hA : ∀ x ∈ s, ∃ v, decimalValue x = some v ∧ E.inRange v ∧
      Atoi intSize x = (v, none) := by
    intro x hx
    obtain ⟨v, h1, h2, h3⟩ := h x hx
    refine ⟨v, h1, h3, (Atoi_spec intSize hsz x).1 v ?_⟩
    simp [intValue, h1, h2]
  have hok : ∀ x ∈ s, (Atoi intSize x).2 = none := by
    intro x hx
    obtain ⟨v, _, _, h3⟩ := hA x hx
    rw [h3]
  unfold StringToInt
  rw [stringToIntLoop_ok intSize E s [] hok]
  refine ⟨rfl, by simp, ?_⟩
  simp only [List.nil_append, List.map_map]
  apply List.map_congr_left
  intro x hx
  obtain ⟨v, h1, h2, h3⟩ := hA x hx
  simp only [Function.comp, h3, h1, conv_of_inRange E hE v h2]

/-- Witness for C9 (amended): `StringToInt[int16](["-12", "+7", "300"])`. -/
theorem StringToInt_values_witness :
    (StringToInt 64 ⟨true, 16⟩ ["-12".toList, "+7".toList, "300".toList]).2 = none ∧
      (StringToInt 64 ⟨true, 16⟩ ["-12".toList, "+7".toList, "300".toList]).1.length = 3 ∧
      (StringToInt 64 ⟨true, 16⟩ ["-12".toList, "+7".toList, "300".toList]).1.map some
        = ["-12".toList, "+7".toList, "300".toList].map decimalValue :=
  StringToInt_values 64 (Or.inr rfl) ⟨true, 16⟩ (by decide)
    ["-12".toList, "+7".toList, "300".toList] (by decide)


/-! ## More on the set operations -/

theorem distinctLoop_of_nodup {E : Type} [DecidableEq E] (rest : List E) (m : KeySet E)
    (res : List E) (hnd : rest.Nodup) (hm : ∀ x ∈ rest, x ∉ m) :
    distinctLoop rest m res = res ++ rest := by
  induction rest generalizing m res with
  | nil => simp [distinctLoop]
  | cons v rest ih =>
    have hv : v ∉ m := hm v (List.mem_cons_self _ _)
    have hnd' := List.nodup_cons.1 hnd
    simp only [distinctLoop, KeySet.found, hv, decide_False, Bool.not_false, if_true]
    rw [ih (m.store v) (res ++ [v]) hnd'.2]
    · simp
    · intro x hx hxm
      rcases (KeySet.mem_store m v x).1 hxm with h | h
      · subst h
        exact hnd'.1 hx
      · exact hm x (List.mem_cons_of_mem _ hx) h

theorem Distinct_of_nodup {E : Type} [DecidableEq E] (s : List E) (h : s.Nodup) :
    Distinct s = s := by
  unfold Distinct
  split
  · rw [distinctLoop_of_nodup s KeySet.empty [] h (by simp [KeySet.empty])]
    rfl
  · cases s with
    | nil => rfl
    | cons a t => simp at *

/-- C13: `Distinct(Distinct(s))` equals `Distinct(s)`. -/
theorem Distinct_idempotent {E : Type} [DecidableEq E] (s : List E) :
    Distinct (Distinct s) = Distinct s :=
  Distinct_of_nodup (Distinct s) (nodup_Distinct s)

theorem mem_Intersect {E : Type} [DecidableEq E] (s1 s2 : List E) (x : E) :
    x ∈ Intersect s1 s2 ↔ x ∈ s1 ∧ x ∈ s2 := by
  rw [Intersect_eq, mem_Distinct, List.mem_filter]
  simp

theorem nodup_Intersect {E : Type} [DecidableEq E] (s1 s2 : List E) :
    (Intersect s1 s2).Nodup := by
  rw [Intersect_eq]
  exact nodup_Distinct _

/-- C14: the length of `Intersect(s1, s2)` is at most the length of `Distinct(s1)` and at
most the length of `Distinct(s2)`. -/
theorem Intersect_length_le {E : Type} [DecidableEq E] (s1 s2 : List E) :
    (Intersect s1 s2).length ≤ (Distinct s1).length ∧
      (Intersect s1 s2).length ≤ (Distinct s2).length := by
  constructor
  · rw [Intersect_eq, Distinct_filter]
    exact List.length_filter_le _ _
  · apply List.Subperm.length_le
    apply List.subperm_of_subset (nodup_Intersect s1 s2)
    intro x hx
    rw [mem_Distinct]
    exact ((mem_Intersect s1 s2 x).1 hx).2

/-- C15: no element of `Subtract(s1, s2)` occurs in `s2`. -/
theorem Subtract_not_mem {E : Type} [DecidableEq E] (s1 s2 : List E) :
    ∀ x, x ∈ Subtract s1 s2 → x ∉ s2 := by
  intro x hx
  rw [Subtract_eq_filter, List.mem_filter] at hx
  simpa using hx.2

/-- Witness for C15: `Subtract([1, 2, 3], [2])` contains 3, which is not in `[2]`. -/
theorem Subtract_not_mem_witness : 3 ∈ Subtract [1, 2, 3] [2] ∧ 3 ∉ [2] :=
  ⟨by decide, Subtract_not_mem [1, 2, 3] [2] 3 (by decide)⟩

/-- C19: `Intersect(s1, s2)` and `Intersect(s2, s1)` are rearrangements of each other: the
same values, the same length. -/
theorem Intersect_comm_perm {E : Type} [DecidableEq E] (s1 s2 : List E) :
    (Intersect s1 s2).Perm (Intersect s2 s1) ∧
      (Intersect s1 s2).length = (Intersect s2 s1).length ∧
      ∀ x, x ∈ Intersect s1 s2 ↔ x ∈ Intersect s2 s1 := by
  have hmem : ∀ x, x ∈ Intersect s1 s2 ↔ x ∈ Intersect s2 s1 := by
    intro x
    rw [mem_Intersect, mem_Intersect]
    exact And.comm
  have hp : (Intersect s1 s2).Perm (Intersect s2 s1) :=
    (List.perm_ext_iff_of_nodup (nodup_Intersect s1 s2) (nodup_Intersect s2 s1)).2 hmem
  exact ⟨hp, hp.length_eq, hmem⟩

/-! ## Index and Equal -/

theorem indexLoop_not_mem {E : Type} [DecidableEq E] (v : E) (s : List E) (i : Nat)
    (h : v ∉ s) : indexLoop v s i = -1 := by
  induction s generalizing i with
  | nil => rfl
  | cons x rest ih =>
    have hx : v ≠ x := fun e => h (e ▸ List.mem_cons_self _ _)
    simp only [indexLoop, if_neg hx]
    exact ih _ (fun hm => h (List.mem_cons_of_mem _ hm))

theorem indexLoop_mem {E : Type} [DecidableEq E] (v : E) (s : List E) (i : Nat)
    (h : v ∈ s) :
    ∃ k : Nat, indexLoop v s i = ((i + k : Nat) : Int) ∧ k < s.length ∧ s[k]? = some v ∧
      ∀ j, j < k → s[j]? ≠ some v := by
  induction s generalizing i with
  | nil => simp at h
  | cons x rest ih =>
    by_cases hx : v = x
    · refine ⟨0, ?_, by simp, by simp [hx], ?_⟩
      · simp [indexLoop, hx]
      · intro j hj
        omega
    · have hr : v ∈ rest := by
        rcases List.mem_cons.1 h with h | h
        · exact absurd h hx
        · exact h
      obtain ⟨k, h1, h2, h3, h4⟩ := ih (i + 1) hr
      refine ⟨k + 1, ?_, by simp; omega, by simpa using h3, ?_⟩
      · simp only [indexLoop, if_neg hx, h1]
        congr 1
        omega
      · intro j hj
        cases j with
        | zero =>
          simp only [List.getElem?_cons_zero, ne_eq, Option.some.injEq]
          exact fun e => hx e.symm
        | succ j =>
          simp only [List.getElem?_cons_succ]
          exact h4 j (by omega)

/-- C17: `Index(s, v)` is -1 exactly when `v` does not occur in `s`; otherwise it is an index
`i` with `0 ≤ i < len(s)`, `s[i] = v`, and `s[j] ≠ v` for every `j < i`. -/
theorem Index_spec {E : Type} [DecidableEq E] (s : List E) (v : E) :
    (Index s v = -1 ↔ v ∉ s) ∧
      (Index s v ≠ -1 →
        ∃ i : Nat, Index s v = (i : Int) ∧ i < s.length ∧ s[i]? = some v ∧
          ∀ j, j < i → s[j]? ≠ some v) := by
  unfold Index
  by_cases h : v ∈ s
  · obtain ⟨k, h1, h2, h3, h4⟩ := indexLoop_mem v s 0 h
    rw [Nat.zero_add] at h1
    refine ⟨?_, fun _ => ⟨k, h1, h2, h3, h4⟩⟩
    rw [h1]
    constructor
    · intro hk
      omega
    · intro hn
      exact absurd h hn
  · refine ⟨⟨fun _ => h, fun _ => indexLoop_not_mem v s 0 h⟩, ?_⟩
    intro hne
    exact absurd (indexLoop_not_mem v s 0 h) hne

theorem equalLoop_iff {E : Type} [DecidableEq E] (s1 s2 : List E)
    (hl : s1.length = s2.length) : equalLoop s1 s2 = true ↔ s1 = s2 := by
  induction s1 generalizing s2 with
  | nil =>
    cases s2 with
    | nil => simp [equalLoop]
    | cons b t => simp at hl
  | cons a r ih =>
    cases s2 with
    | nil => simp at hl
    | cons b t =>
      simp only [List.length_cons, Nat.add_right_cancel_iff] at hl
      by_cases hab : a = b
      · subst hab
        simp [equalLoop, ih t hl]
      · simp [equalLoop, hab]

theorem Equal_iff_eq {E : Type} [DecidableEq E] (s1 s2 : List E) :
    Equal s1 s2 = true ↔ s1 = s2 := by
  unfold Equal
  by_cases hl : s1.length = s2.length
  · simp only [ne_eq, hl, not_true_eq_false, if_false]
    exact equalLoop_iff s1 s2 hl
  · simp only [ne_eq, hl, not_false_eq_true, if_true, Bool.false_eq_true, false_iff]
    intro h
    exact hl (by rw [h])

/-- C18: `Equal(s1, s2)` is true exactly when `s1` and `s2` have the same length and
`s1[i] = s2[i]` for every index `i` below that length. -/
theorem Equal_spec {E : Type} [DecidableEq E] (s1 s2 : List E) :
    Equal s1 s2 = true ↔
      s1.length = s2.length ∧ ∀ i, i < s1.length → s1[i]? = s2[i]? := by
  rw [Equal_iff_eq]
  constructor
  · intro h
    subst h
    exact ⟨rfl, fun _ _ => rfl⟩
  · rintro ⟨hl, h⟩
    apply List.ext_getElem?
    intro i
    by_cases hi : i < s1.length
    · exact h i hi
    · rw [List.getElem?_eq_none (by omega), List.getElem?_eq_none (by omega)]

/-! ## LongToInt64 and Sum -/

theorem longToInt64Loop_eq (s : List (Option Long)) (rs : List Int) :
    longToInt64Loop s rs = rs ++ s.filterMap (fun v => v.map (fun l => l.Int64)) := by
  induction s generalizing rs with
  | nil => simp [longToInt64Loop]
  | cons v rest ih =>
    cases v with
    | none => simp [longToInt64Loop, ih]
    | some l => simp [longToInt64Loop, ih]

theorem length_filterMap_eq_countP {α β : Type} (f : α → Option β) (s : List α) :
    (s.filterMap f).length = s.countP (fun v => (f v).isSome) := by
  induction s with
  | nil => rfl
  | cons a t ih =>
    cases h : f a with
    | none => simp [List.filterMap_cons, h, ih]
    | some b => simp [List.filterMap_cons, h, ih]

/-- C16: `LongToInt64(s)` is the sequence of the `int64` values of the present entries of
`s`, in their order; its length is the number of present entries, at most `len(s)`. -/
theorem LongToInt64_spec (s : List (Option Long)) :
    LongToInt64 s = s.filterMap (fun v => v.map (fun l => l.Int64)) ∧
      (LongToInt64 s).length = s.countP (fun v => v.isSome) ∧
      (LongToInt64 s).length ≤ s.length := by
  have h : LongToInt64 s = s.filterMap (fun v => v.map (fun l => l.Int64)) := by
    simp [LongToInt64, longToInt64Loop_eq]
  have hl : (LongToInt64 s).length = s.countP (fun v => v.isSome) := by
    rw [h, length_filterMap_eq_countP]
    congr 1
    funext v
    cases v <;> rfl
  refine ⟨h, hl, ?_⟩
  rw [hl]
  exact List.countP_le_length _

theorem conv_modEq (E : IntType) (x : Int) : E.conv x ≡ x [ZMOD (2 : Int) ^ E.bits] := by
  unfold IntType.conv
  split
  · have h := (Int.mod_modEq (x + (2 : Int) ^ (E.bits - 1)) ((2 : Int) ^ E.bits)).sub_right
      ((2 : Int) ^ (E.bits - 1))
    simpa using h
  · exact Int.mod_modEq x _

theorem conv_congr (E : IntType) (x y : Int) (h : x ≡ y [ZMOD (2 : Int) ^ E.bits]) :
    E.conv x = E.conv y := by
  unfold IntType.conv
  split
  · have h2 := h.add_right ((2 : Int) ^ (E.bits - 1))
    unfold Int.ModEq at h2
    rw [h2]
  · exact h

theorem sumLoop_append (E : IntType) (s1 s2 : List Int) (e : Int) :
    sumLoop E (s1 ++ s2) e = sumLoop E s2 (sumLoop E s1 e) := by
  induction s1 generalizing e with
  | nil => rfl
  | cons v rest ih => simp [sumLoop, ih]

theorem conv_conv (E : IntType) (x : Int) : E.conv (E.conv x) = E.conv x :=
  conv_congr E _ _ (conv_modEq E x)

theorem sumLoop_fixed (E : IntType) (s : List Int) (e : Int) (he : E.conv e = e) :
    E.conv (sumLoop E s e) = sumLoop E s e := by
  induction s generalizing e with
  | nil => simpa [sumLoop] using he
  | cons v rest ih =>
    simp only [sumLoop]
    exact ih _ (conv_conv E _)

theorem sumLoop_conv (E : IntType) (s : List Int) (e : Int) :
    E.conv (sumLoop E s e) = E.conv (e + sumLoop E s 0) := by
  induction s generalizing e with
  | nil => simp [sumLoop]
  | cons v rest ih =>
    simp only [sumLoop]
    rw [ih (E.conv (e + v)), ← sumLoop_fixed E rest (E.conv (0 + v)) (conv_conv E _),
      ih (E.conv (0 + v))]
    apply conv_congr
    have h1 := conv_modEq E (e + v)
    have h2 := conv_modEq E (0 + v)
    have h3 := conv_modEq E (E.conv (0 + v) + sumLoop E rest 0)
    calc E.conv (e + v) + sumLoop E rest 0
        ≡ (e + v) + sumLoop E rest 0 [ZMOD (2 : Int) ^ E.bits] := h1.add_right _
      _ = e + ((0 + v) + sumLoop E rest 0) := by ring
      _ ≡ e + (E.conv (0 + v) + sumLoop E rest 0) [ZMOD (2 : Int) ^ E.bits] :=
        (h2.add_right _).symm.add_left _
      _ ≡ e + E.conv (E.conv (0 + v) + sumLoop E rest 0) [ZMOD (2 : Int) ^ E.bits] :=
        h3.symm.add_left _

theorem zero_inRange (E : IntType) : E.inRange 0 := by
  unfold IntType.inRange
  split
  · have : (0 : Int) < (2 : Int) ^ (E.bits - 1) := by positivity
    constructor <;> linarith
  · exact ⟨le_refl _, by positivity⟩

/-- C20: at an integer type `E`, `Sum` of the concatenation of `s1` and `s2` is the sum, in
the wrap-around addition of `E`, of `Sum(s1)` and `Sum(s2)`; and `Sum` of the empty sequence
is 0. -/
theorem Sum_append (E : IntType) (hE : E.valid) (s1 s2 : List Int) :
    Sum E (s1 ++ s2) = E.conv (Sum E s1 + Sum E s2) ∧ Sum E [] = 0 := by
  refine ⟨?_, rfl⟩
  unfold Sum
  rw [sumLoop_append]
  have h0 : E.conv (sumLoop E s1 0) = sumLoop E s1 0 :=
    sumLoop_fixed E s1 0 (conv_of_inRange E hE 0 (zero_inRange E))
  rw [← sumLoop_fixed E s2 (sumLoop E s1 0) h0, sumLoop_conv]

/-- Witness for C20: `int8`, where the sum of `[100, 27]` and `[1, 1]` wraps. -/
theorem Sum_append_witness :
    Sum ⟨true, 8⟩ ([100, 27] ++ [1, 1]) = -127 ∧
      Sum ⟨true, 8⟩ ([100, 27] ++ [1, 1])
        = (⟨true, 8⟩ : IntType).conv (Sum ⟨true, 8⟩ [100, 27] + Sum ⟨true, 8⟩ [1, 1]) :=
  ⟨by decide, (Sum_append ⟨true, 8⟩ (by decide) [100, 27] [1, 1]).1⟩

/-! ## EqualIgnoreOrder -/

theorem length_sorted {E : Type} [LinearOrder E] (l : List E) :
    (sorted l).length = l.length :=
  List.length_insertionSort _ l

theorem perm_sorted {E : Type} [LinearOrder E] (l : List E) : (sorted l).Perm l :=
  List.perm_insertionSort _ l

theorem sorted_sorted {E : Type} [LinearOrder E] (l : List E) :
    (sorted l).Sorted (· ≤ ·) :=
  List.sorted_insertionSort _ l

theorem sorted_idem {E : Type} [LinearOrder E] (l : List E) : sorted (sorted l) = sorted l :=
  List.eq_of_perm_of_sorted (perm_sorted (sorted l)) (sorted_sorted _) (sorted_sorted l)

theorem sorted_eq_iff_perm {E : Type} [LinearOrder E] (a b : List E) :
    sorted a = sorted b ↔ a.Perm b := by
  constructor
  · intro h
    exact ((perm_sorted a).symm.trans (h ▸ List.Perm.refl _)).trans (perm_sorted b)
  · intro h
    exact List.eq_of_perm_of_sorted (((perm_sorted a).trans h).trans (perm_sorted b).symm)
      (sorted_sorted a) (sorted_sorted b)

theorem wf_sortInPlace {E : Type} [LinearOrder E] (m : Store E) (s u : SliceHdr)
    (hs : s.wf m) (hu : u.wf m) : u.wf (sortInPlace m s) := by
  have hl := length_view m s hs
  unfold SliceHdr.wf at hs hu ⊢
  unfold sortInPlace
  rw [length_write]
  · exact hu
  · rw [length_sorted, hl]
    omega

theorem view_sortInPlace_self {E : Type} [LinearOrder E] (m : Store E) (s : SliceHdr)
    (hs : s.wf m) : view (sortInPlace m s) s = sorted (view m s) := by
  have hl := length_view m s hs
  have hls : (sorted (view m s)).length = s.len := by rw [length_sorted, hl]
  unfold SliceHdr.wf at hs
  have h := view_write_same m s.ptr s.cap (sorted (view m s)) (by rw [hls]; omega)
  rw [hls] at h
  exact h

theorem view_of_sameCells {E : Type} (m : Store E) (s t : SliceHdr) (h : s.sameCells t) :
    view m s = view m t := by
  unfold view
  rw [h.1, h.2]

theorem view_sortInPlace_disjoint {E : Type} [LinearOrder E] (m : Store E) (s u : SliceHdr)
    (hs : s.wf m) (hd : s.disjoint u) : view (sortInPlace m s) u = view m u := by
  have hl := length_view m s hs
  have hls : (sorted (view m s)).length = s.len := by rw [length_sorted, hl]
  unfold SliceHdr.wf at hs
  rcases hd with h0 | h0 | h0 | h0
  · have hnil : sorted (view m s) = [] := List.length_eq_zero.1 (by rw [hls, h0])
    unfold sortInPlace write
    rw [hnil]
    simp
  · unfold view
    rw [h0]
    simp
  · apply view_write_disjoint
    · rw [hls]; omega
    · right; rw [hls]; exact h0
  · apply view_write_disjoint
    · rw [hls]; omega
    · left; exact h0

theorem disjoint_symm (s t : SliceHdr) (h : s.disjoint t) : t.disjoint s := by
  unfold SliceHdr.disjoint at h ⊢
  omega

/-- The elements of both arguments after `EqualIgnoreOrder`, for arguments that share no
cell or are the same cells: each holds its former elements in ascending order. -/
theorem EqualIgnoreOrder_views {E : Type} [LinearOrder E] (m : Store E) (s1 s2 : SliceHdr)
    (h1 : s1.wf m) (h2 : s2.wf m) (hsep : s1.disjoint s2 ∨ s1.sameCells s2) :
    view (EqualIgnoreOrder m s1 s2).1 s1 = sorted (view m s1) ∧
      view (EqualIgnoreOrder m s1 s2).1 s2 = sorted (view m s2) := by
  have hw1 := wf_sortInPlace m s1 s1 h1 h1
  have hw2 := wf_sortInPlace m s1 s2 h1 h2
  simp only [EqualIgnoreOrder]
  rcases hsep with hd | hsame
  · constructor
    · rw [view_sortInPlace_disjoint _ s2 s1 hw2 (disjoint_symm _ _ hd),
        view_sortInPlace_self m s1 h1]
    · rw [view_sortInPlace_self _ s2 hw2, view_sortInPlace_disjoint m s1 s2 h1 hd]
  · have e2 : view (sortInPlace (sortInPlace m s1) s2) s2 = sorted (view m s1) := by
      rw [view_sortInPlace_self _ s2 hw2, ← view_of_sameCells _ s1 s2 hsame,
        view_sortInPlace_self m s1 h1, sorted_idem]
    constructor
    · rw [view_of_sameCells _ s1 s2 hsame, e2]
    · rw [e2, view_of_sameCells m s1 s2 hsame]

/-- C11, counterexample: on the array `[1, 2, 1]`, the slices `a[0:2] = [1, 2]` and
`a[1:3] = [2, 1]` are rearrangements of each other, and `EqualIgnoreOrder` returns false
for them: sorting the first in place changes the second. -/
theorem EqualIgnoreOrder_overlap_false :
    (⟨0, 2, 3⟩ : SliceHdr).wf [(1 : Int), 2, 1] ∧ (⟨1, 2, 2⟩ : SliceHdr).wf [(1 : Int), 2, 1] ∧
      (view [(1 : Int), 2, 1] ⟨0, 2, 3⟩).Perm (view [(1 : Int), 2, 1] ⟨1, 2, 2⟩) ∧
      (EqualIgnoreOrder [(1 : Int), 2, 1] ⟨0, 2, 3⟩ ⟨1, 2, 2⟩).2 = false := by
  decide

/-- C11, amended: for argument slices that share no cell, or that are the same cells,
`EqualIgnoreOrder` returns true exactly when `s2` is a rearrangement of `s1`. -/
theorem EqualIgnoreOrder_iff_perm {E : Type} [LinearOrder E] (m : Store E)
    (s1 s2 : SliceHdr) (h1 : s1.wf m) (h2 : s2.wf m)
    (hsep : s1.disjoint s2 ∨ s1.sameCells s2) :
    (EqualIgnoreOrder m s1 s2).2 = true ↔ (view m s1).Perm (view m s2) := by
  have hv := EqualIgnoreOrder_views m s1 s2 h1 h2 hsep
  have he : (EqualIgnoreOrder m s1 s2).2
      = Equal (view (EqualIgnoreOrder m s1 s2).1 s1) (view (EqualIgnoreOrder m s1 s2).1 s2) :=
    rfl
  rw [he, hv.1, hv.2, Equal_iff_eq, sorted_eq_iff_perm]

/-- Witness for C11 (amended): `EqualIgnoreOrder([3, 1, 2], [1, 2, 3])`. -/
theorem EqualIgnoreOrder_iff_perm_witness :
    (EqualIgnoreOrder [(3 : Int), 1, 2, 1, 2, 3] ⟨0, 3, 3⟩ ⟨3, 3, 3⟩).2 = true ∧
      (view [(3 : Int), 1, 2, 1, 2, 3] ⟨0, 3, 3⟩).Perm
        (view [(3 : Int), 1, 2, 1, 2, 3] ⟨3, 3, 3⟩) :=
  ⟨by decide,
    (EqualIgnoreOrder_iff_perm [(3 : Int), 1, 2, 1, 2, 3] ⟨0, 3, 3⟩ ⟨3, 3, 3⟩ (by decide)
      (by decide) (by decide)).1 (by decide)⟩

/-- C12, counterexample: on the array `[2, 3, 1]`, after `EqualIgnoreOrder(a[0:2], a[1:3])`
the first argument, which held `[2, 3]`, holds `[2, 1]`: not ascending, and not a
rearrangement of `[2, 3]`. -/
theorem EqualIgnoreOrder_overlap_unsorted :
    (⟨0, 2, 3⟩ : SliceHdr).wf [(2 : Int), 3, 1] ∧ (⟨1, 2, 2⟩ : SliceHdr).wf [(2 : Int), 3, 1] ∧
      view [(2 : Int), 3, 1] ⟨0, 2, 3⟩ = [2, 3] ∧
      view (EqualIgnoreOrder [(2 : Int), 3, 1] ⟨0, 2, 3⟩ ⟨1, 2, 2⟩).1 ⟨0, 2, 3⟩ = [2, 1] ∧
      ¬ (view (EqualIgnoreOrder [(2 : Int), 3, 1] ⟨0, 2, 3⟩ ⟨1, 2, 2⟩).1 ⟨0, 2, 3⟩).Sorted
        (· ≤ ·) ∧
      ¬ (view (EqualIgnoreOrder [(2 : Int), 3, 1] ⟨0, 2, 3⟩ ⟨1, 2, 2⟩).1 ⟨0, 2, 3⟩).Perm
        (view [(2 : Int), 3, 1] ⟨0, 2, 3⟩) := by
  decide

/-- C12, amended: for argument slices that share no cell, or that are the same cells, after
`EqualIgnoreOrder` each argument is in ascending order and is a rearrangement of the elements
it had before the call, of the same length. -/
theorem EqualIgnoreOrder_sorts {E : Type} [LinearOrder E] (m : Store E)
    (s1 s2 : SliceHdr) (h1 : s1.wf m) (h2 : s2.wf m)
    (hsep : s1.disjoint s2 ∨ s1.sameCells s2) :
    ((view (EqualIgnoreOrder m s1 s2).1 s1).Sorted (· ≤ ·) ∧
        (view (EqualIgnoreOrder m s1 s2).1 s1).Perm (view m s1) ∧
        (view (EqualIgnoreOrder m s1 s2).1 s1).length = (view m s1).length) ∧
      ((view (EqualIgnoreOrder m s1 s2).1 s2).Sorted (· ≤ ·) ∧
        (view (EqualIgnoreOrder m s1 s2).1 s2).Perm (view m s2) ∧
        (view (EqualIgnoreOrder m s1 s2).1 s2).length = (view m s2).length) := by
  have hv := EqualIgnoreOrder_views m s1 s2 h1 h2 hsep
  rw [hv.1, hv.2]
  exact ⟨⟨sorted_sorted _, perm_sorted _, length_sorted _⟩,
    ⟨sorted_sorted _, perm_sorted _, length_sorted _⟩⟩

/-- Witness for C12 (amended): `EqualIgnoreOrder([3, 1, 2], [1, 2, 3])`. -/
theorem EqualIgnoreOrder_sorts_witness :
    view (EqualIgnoreOrder [(3 : Int), 1, 2, 1, 2, 3] ⟨0, 3, 3⟩ ⟨3, 3, 3⟩).1 ⟨0, 3, 3⟩
        = [1, 2, 3] ∧
      (view (EqualIgnoreOrder [(3 : Int), 1, 2, 1, 2, 3] ⟨0, 3, 3⟩ ⟨3, 3, 3⟩).1
        ⟨0, 3, 3⟩).Sorted (· ≤ ·) :=
  ⟨by decide,
    (EqualIgnoreOrder_sorts [(3 : Int), 1, 2, 1, 2, 3] ⟨0, 3, 3⟩ ⟨3, 3, 3⟩ (by decide)
      (by decide) (by decide)).1.1⟩


/-! ## The operations over the store leave their inputs unchanged -/

theorem wf_append_store {E : Type} (m xs : Store E) (s : SliceHdr) (h : s.wf m) :
    s.wf (m ++ xs) := by
  unfold SliceHdr.wf at h ⊢
  rw [List.length_append]
  omega

theorem view_append_store {E : Type} (m xs : Store E) (s : SliceHdr) (h : s.wf m) :
    view (m ++ xs) s = view m s := by
  unfold SliceHdr.wf at h
  simp only [view]
  rw [List.drop_append_of_le_length (by omega), List.take_append_of_le_length]
  simp only [List.length_drop]
  omega

theorem Unchanged.rfl {E : Type} (m : Store E) (s : SliceHdr) (h : s.wf m) :
    Unchanged m m s :=
  ⟨h, Eq.refl _⟩

theorem Unchanged.trans {E : Type} {m1 m2 m3 : Store E} {s : SliceHdr}
    (h12 : Unchanged m1 m2 s) (h23 : Unchanged m2 m3 s) : Unchanged m1 m3 s :=
  ⟨h23.1, h23.2.trans h12.2⟩

theorem loadAt_eq {E : Type} (m : Store E) (s : SliceHdr) (i : Nat) :
    loadAt m s i = (view m s)[i]? := by
  rw [getElem?_view]
  rfl

theorem view_drop_cons {E : Type} (m : Store E) (s : SliceHdr) (i : Nat) (hs : s.wf m)
    (hi : i < s.len) :
    ∃ v, loadAt m s i = some v ∧ (view m s).drop i = v :: (view m s).drop (i + 1) := by
  have hl := length_view m s hs
  have hi' : i < (view m s).length := by omega
  exact ⟨(view m s)[i], by rw [loadAt_eq, List.getElem?_eq_getElem hi'],
    List.drop_eq_getElem_cons hi'⟩

theorem nilSlice_wf {E : Type} (m : Store E) : nilSlice.wf m := by
  unfold SliceHdr.wf nilSlice
  simp

/-- The built-in `append(res, v)` on a slice without spare capacity takes a new array. -/
theorem appendVal_full {E : Type} (m : Store E) (res : SliceHdr) (v : E)
    (hres : res.len = res.cap) :
    appendVal m res v = (m ++ (view m res ++ [v]), ⟨m.length, res.len + 1, res.len + 1⟩) := by
  unfold appendVal
  rw [if_neg (by omega)]

theorem appendVal_unchanged {E : Type} (m : Store E) (res u : SliceHdr) (v : E)
    (hres : res.len = res.cap) (hu : u.wf m) : Unchanged m (appendVal m res v).1 u := by
  rw [appendVal_full m res v hres]
  exact ⟨wf_append_store m _ u hu, view_append_store m _ u hu⟩

theorem appendVal_result {E : Type} (m : Store E) (res : SliceHdr) (v : E)
    (hres : res.len = res.cap) (hw : res.wf m) :
    (appendVal m res v).2.wf (appendVal m res v).1 ∧
      (appendVal m res v).2.len = (appendVal m res v).2.cap ∧
      view (appendVal m res v).1 (appendVal m res v).2 = view m res ++ [v] := by
  have hl := length_view m res hw
  rw [appendVal_full m res v hres]
  refine ⟨?_, rfl, ?_⟩
  · unfold SliceHdr.wf
    simp only [List.length_append, List.length_singleton, hl]
    omega
  · simp only [view]
    rw [List.drop_left, List.take_of_length_le]
    simp only [List.length_append, List.length_singleton]
    have := hl
    simp only [view] at this
    omega

theorem stored_distinctLoop_unchanged {E : Type} [DecidableEq E] (s u : SliceHdr)
    (n i : Nat) (m : Store E) (mp : KeySet E) (res : SliceHdr)
    (hres : res.len = res.cap) (hu : u.wf m) :
    Unchanged m (Stored.distinctLoop s n i m mp res).1 u := by
  induction n generalizing i m mp res with
  | zero => exact Unchanged.rfl m u hu
  | succ n ih =>
    unfold Stored.distinctLoop
    cases loadAt m s i with
    | none => exact Unchanged.rfl m u hu
    | some v =>
      simp only
      split
      · have h1 := appendVal_unchanged m res u v hres hu
        have hres' : (appendVal m res v).2.len = (appendVal m res v).2.cap := by
          rw [appendVal_full m res v hres]
        exact h1.trans (ih (i + 1) _ (mp.store v) _ hres' h1.1)
      · exact ih (i + 1) m mp res hres hu

theorem stored_Distinct_unchanged {E : Type} [DecidableEq E] (m : Store E)
    (s u : SliceHdr) (hu : u.wf m) : Unchanged m (Stored.Distinct m s).1 u := by
  unfold Stored.Distinct
  split
  · exact stored_distinctLoop_unchanged s u s.len 0 m KeySet.empty nilSlice rfl hu
  · exact Unchanged.rfl m u hu

theorem stored_subtractLoop_unchanged {E : Type} [DecidableEq E] (mp : KeySet E)
    (s1 u : SliceHdr) (n i : Nat) (m : Store E) (res : SliceHdr)
    (hres : res.len = res.cap) (hu : u.wf m) :
    Unchanged m (Stored.subtractLoop mp s1 n i m res).1 u := by
  induction n generalizing i m res with
  | zero => exact Unchanged.rfl m u hu
  | succ n ih =>
    unfold Stored.subtractLoop
    cases loadAt m s1 i with
    | none => exact Unchanged.rfl m u hu
    | some v =>
      simp only
      split
      · have h1 := appendVal_unchanged m res u v hres hu
        have hres' : (appendVal m res v).2.len = (appendVal m res v).2.cap := by
          rw [appendVal_full m res v hres]
        exact h1.trans (ih (i + 1) _ _ hres' h1.1)
      · exact ih (i + 1) m res hres hu

theorem stored_intersectLoop_unchanged {E : Type} [DecidableEq E] (mp : KeySet E)
    (s1 u : SliceHdr) (n i : Nat) (m : Store E) (res : SliceHdr)
    (hres : res.len = res.cap) (hu : u.wf m) :
    Unchanged m (Stored.intersectLoop mp s1 n i m res).1 u := by
  induction n generalizing i m res with
  | zero => exact Unchanged.rfl m u hu
  | succ n ih =>
    unfold Stored.intersectLoop
    cases loadAt m s1 i with
    | none => exact Unchanged.rfl m u hu
    | some v =>
      simp only
      split
      · have h1 := appendVal_unchanged m res u v hres hu
        have hres' : (appendVal m res v).2.len = (appendVal m res v).2.cap := by
          rw [appendVal_full m res v hres]
        exact h1.trans (ih (i + 1) _ _ hres' h1.1)
      · exact ih (i + 1) m res hres hu

theorem stored_Subtract_unchanged {E : Type} [DecidableEq E] (m : Store E)
    (s1 s2 u : SliceHdr) (hu : u.wf m) : Unchanged m (Stored.Subtract m s1 s2).1 u := by
  unfold Stored.Subtract
  split
  · exact stored_subtractLoop_unchanged _ s1 u s1.len 0 m nilSlice rfl hu
  · exact Unchanged.rfl m u hu

theorem stored_Intersect_unchanged {E : Type} [DecidableEq E] (m : Store E)
    (s1 s2 u : SliceHdr) (hu : u.wf m) : Unchanged m (Stored.Intersect m s1 s2).1 u := by
  unfold Stored.Intersect
  split
  · have h1 := stored_intersectLoop_unchanged (fillLoop (view m s2) KeySet.empty) s1 u
      s1.len 0 m nilSlice rfl hu
    exact h1.trans (stored_Distinct_unchanged _ _ u h1.1)
  · exact stored_Distinct_unchanged m nilSlice u hu

theorem wf_goAppend {E : Type} (m : Store E) (s t u : SliceHdr) (hs : s.wf m) (ht : t.wf m)
    (hu : u.wf m) : u.wf (goAppend m s t).1 := by
  have hlt := length_view m t ht
  unfold SliceHdr.wf at hs ht
  unfold goAppend
  split
  · simp only
    unfold SliceHdr.wf at hu ⊢
    rw [length_write m _ _ (by omega)]
    exact hu
  · exact wf_append_store m _ u hu

theorem write_view_self {E : Type} (m : Store E) (s : SliceHdr) (hs : s.wf m) :
    write m s.ptr (view m s) = m := by
  have hl := length_view m s hs
  unfold SliceHdr.wf at hs
  apply List.ext_getElem?
  intro k
  rw [getElem?_write m _ _ (by omega)]
  split
  · rfl
  · split
    · rw [getElem?_view, if_pos (by omega)]
      congr 1
      omega
    · rfl

theorem stored_Union_unchanged_fst {E : Type} [DecidableEq E] (m : Store E)
    (s1 s2 : SliceHdr) (h1 : s1.wf m) (h2 : s2.wf m) :
    Unchanged m (Stored.Union m s1 s2).1 s1 := by
  unfold Stored.Union
  have ha : Unchanged m (goAppend m s1 s2).1 s1 :=
    ⟨wf_goAppend m s1 s2 s1 h1 h2 h1, view_goAppend_fst m s1 s2 h1 h2⟩
  exact ha.trans (stored_Distinct_unchanged _ _ s1 ha.1)

theorem stored_Union_unchanged_snd {E : Type} [DecidableEq E] (m : Store E)
    (s1 s2 : SliceHdr) (h1 : s1.wf m) (h2 : s2.wf m)
    (hd : s1.cap < s1.len + s2.len ∨ s2.ptr = s1.ptr + s1.len ∨
      s2.ptr + s2.len ≤ s1.ptr + s1.len ∨ s1.ptr + s1.len + s2.len ≤ s2.ptr) :
    Unchanged m (Stored.Union m s1 s2).1 s2 := by
  unfold Stored.Union
  have hv : view (goAppend m s1 s2).1 s2 = view m s2 := by
    rcases hd with h | h | h | h
    · exact view_goAppend_snd m s1 s2 h1 h2 (Or.inl h)
    · by_cases hc : s1.len + s2.len ≤ s1.cap
      · unfold goAppend
        rw [if_pos hc, ← h, write_view_self m s2 h2]
      · exact view_goAppend_snd m s1 s2 h1 h2 (Or.inl (by omega))
    · exact view_goAppend_snd m s1 s2 h1 h2 (Or.inr (Or.inl h))
    · exact view_goAppend_snd m s1 s2 h1 h2 (Or.inr (Or.inr h))
  have ha : Unchanged m (goAppend m s1 s2).1 s2 := ⟨wf_goAppend m s1 s2 s2 h1 h2 h2, hv⟩
  exact ha.trans (stored_Distinct_unchanged _ _ s2 ha.1)

theorem stored_indexFuncLoop_unchanged {σ E : Type} (get : σ → Store E)
    (f : E → σ → Bool × σ) (s u : SliceHdr)
    (hf : ∀ x st, u.wf (get st) → Unchanged (get st) (get (f x st).2) u)
    (n i : Nat) (st : σ) (hu : u.wf (get st)) :
    Unchanged (get st) (get (Stored.indexFuncLoop get f s n i st).1) u := by
  induction n generalizing i st with
  | zero => exact Unchanged.rfl _ u hu
  | succ n ih =>
    unfold Stored.indexFuncLoop
    cases loadAt (get st) s i with
    | none => exact Unchanged.rfl _ u hu
    | some x =>
      simp only
      have h1 := hf x st hu
      split
      · exact h1
      · exact h1.trans (ih (i + 1) _ h1.1)

theorem stored_equalFuncLoop_unchanged {σ E1 E2 E : Type} (get1 : σ → Store E1)
    (get2 : σ → Store E2) (get : σ → Store E) (eq : E1 → E2 → σ → Bool × σ)
    (s1 s2 u : SliceHdr)
    (hf : ∀ x y st, u.wf (get st) → Unchanged (get st) (get (eq x y st).2) u)
    (n i : Nat) (st : σ) (hu : u.wf (get st)) :
    Unchanged (get st) (get (Stored.equalFuncLoop get1 get2 eq s1 s2 n i st).1) u := by
  induction n generalizing i st with
  | zero => exact Unchanged.rfl _ u hu
  | succ n ih =>
    unfold Stored.equalFuncLoop
    cases loadAt (get1 st) s1 i with
    | none => exact Unchanged.rfl _ u hu
    | some v1 =>
      cases loadAt (get2 st) s2 i with
      | none => exact Unchanged.rfl _ u hu
      | some v2 =>
        simp only
        have h1 := hf v1 v2 st hu
        split
        · exact h1
        · exact h1.trans (ih (i + 1) _ h1.1)

theorem stored_EqualFunc_unchanged {σ E1 E2 E : Type} (get1 : σ → Store E1)
    (get2 : σ → Store E2) (get : σ → Store E) (eq : E1 → E2 → σ → Bool × σ)
    (s1 s2 u : SliceHdr)
    (hf : ∀ x y st, u.wf (get st) → Unchanged (get st) (get (eq x y st).2) u)
    (st : σ) (hu : u.wf (get st)) :
    Unchanged (get st) (get (Stored.EqualFunc get1 get2 eq st s1 s2).1) u := by
  unfold Stored.EqualFunc
  split
  · exact Unchanged.rfl _ u hu
  · exact stored_equalFuncLoop_unchanged get1 get2 get eq s1 s2 u hf _ _ st hu

/-! ## The reading loops over the store -/

theorem stored_indexLoop_eq {E : Type} [DecidableEq E] (v : E) (s : SliceHdr) (n i : Nat)
    (m : Store E) (hs : s.wf m) (hin : i + n = s.len) :
    Stored.indexLoop v s n i m = (m, slicex.indexLoop v ((view m s).drop i) i) := by
  induction n generalizing i with
  | zero =>
    have hl := length_view m s hs
    rw [List.drop_eq_nil_of_le (by omega)]
    rfl
  | succ n ih =>
    obtain ⟨x, hx, hd⟩ := view_drop_cons m s i hs (by omega)
    unfold Stored.indexLoop
    rw [hx, hd]
    simp only [slicex.indexLoop]
    split
    · rfl
    · exact ih (i + 1) (by omega)

/-- The store-level `Index` leaves the store and returns `Index` of the elements. -/
theorem stored_Index_eq {E : Type} [DecidableEq E] (m : Store E) (s : SliceHdr) (v : E)
    (hs : s.wf m) : Stored.Index m s v = (m, slicex.Index (view m s) v) := by
  unfold Stored.Index slicex.Index
  rw [stored_indexLoop_eq v s s.len 0 m hs (by omega), List.drop_zero]

theorem stored_equalLoop_eq {E : Type} [DecidableEq E] (s1 s2 : SliceHdr) (n i : Nat)
    (m : Store E) (h1 : s1.wf m) (h2 : s2.wf m) (hl : s1.len = s2.len)
    (hin : i + n = s1.len) :
    Stored.equalLoop s1 s2 n i m
      = (m, slicex.equalLoop ((view m s1).drop i) ((view m s2).drop i)) := by
  induction n generalizing i with
  | zero =>
    have hl1 := length_view m s1 h1
    have hl2 := length_view m s2 h2
    rw [List.drop_eq_nil_of_le (by omega), List.drop_eq_nil_of_le (by omega)]
    rfl
  | succ n ih =>
    obtain ⟨x, hx, hd⟩ := view_drop_cons m s1 i h1 (by omega)
    obtain ⟨y, hy, hd2⟩ := view_drop_cons m s2 i h2 (by omega)
    unfold Stored.equalLoop
    rw [hx, hy, hd, hd2]
    simp only [slicex.equalLoop]
    split
    · rfl
    · exact ih (i + 1) (by omega)

/-- The store-level `Equal` leaves the store and returns `Equal` of the elements. -/
theorem stored_Equal_eq {E : Type} [DecidableEq E] (m : Store E) (s1 s2 : SliceHdr)
    (h1 : s1.wf m) (h2 : s2.wf m) :
    Stored.Equal m s1 s2 = (m, slicex.Equal (view m s1) (view m s2)) := by
  have hl1 := length_view m s1 h1
  have hl2 := length_view m s2 h2
  unfold Stored.Equal slicex.Equal
  by_cases hl : s1.len = s2.len
  · rw [if_neg (by simpa using hl), if_neg (by rw [hl1, hl2]; simpa using hl),
      stored_equalLoop_eq s1 s2 s1.len 0 m h1 h2 hl (by omega), List.drop_zero,
      List.drop_zero]
  · rw [if_pos hl, if_pos (by rw [hl1, hl2]; exact hl)]

theorem stored_sumLoop_eq (E : IntType) (s : SliceHdr) (n i : Nat) (m : Store Int) (e : Int)
    (hs : s.wf m) (hin : i + n = s.len) :
    Stored.sumLoop E s n i m e = (m, slicex.sumLoop E ((view m s).drop i) e) := by
  induction n generalizing i e with
  | zero =>
    have hl := length_view m s hs
    rw [List.drop_eq_nil_of_le (by omega)]
    rfl
  | succ n ih =>
    obtain ⟨x, hx, hd⟩ := view_drop_cons m s i hs (by omega)
    unfold Stored.sumLoop
    rw [hx, hd]
    simp only [slicex.sumLoop]
    exact ih (i + 1) _ (by omega)

/-- The store-level `Sum` leaves the store and returns `Sum` of the elements. -/
theorem stored_Sum_eq (E : IntType) (m : Store Int) (s : SliceHdr) (hs : s.wf m) :
    Stored.Sum E m s = (m, slicex.Sum E (view m s)) := by
  unfold Stored.Sum slicex.Sum
  rw [stored_sumLoop_eq E s s.len 0 m 0 hs (by omega), List.drop_zero]

theorem stored_intToStringLoop_eq (s : SliceHdr) (n i : Nat) (m : Store Int)
    (res : List GoString) (hs : s.wf m) (hin : i + n = s.len) :
    Stored.intToStringLoop s n i m res
      = (m, slicex.intToStringLoop ((view m s).drop i) res) := by
  induction n generalizing i res with
  | zero =>
    have hl := length_view m s hs
    rw [List.drop_eq_nil_of_le (by omega)]
    rfl
  | succ n ih =>
    obtain ⟨x, hx, hd⟩ := view_drop_cons m s i hs (by omega)
    unfold Stored.intToStringLoop
    rw [hx, hd]
    simp only [slicex.intToStringLoop]
    exact ih (i + 1) _ (by omega)

/-- The store-level `IntToString` leaves the store and returns `IntToString` of the
elements. -/
theorem stored_IntToString_eq (m : Store Int) (s : SliceHdr) (hs : s.wf m) :
    Stored.IntToString m s = (m, slicex.IntToString (view m s)) := by
  unfold Stored.IntToString slicex.IntToString
  rw [stored_intToStringLoop_eq s s.len 0 m [] hs (by omega), List.drop_zero]

theorem stored_stringToIntLoop_eq (intSize : Nat) (E : IntType) (s : SliceHdr) (n i : Nat)
    (m : Store GoString) (res : List Int) (hs : s.wf m) (hin : i + n = s.len) :
    Stored.stringToIntLoop intSize E s n i m res
      = (m, slicex.stringToIntLoop intSize E ((view m s).drop i) res) := by
  induction n generalizing i res with
  | zero =>
    have hl := length_view m s hs
    rw [List.drop_eq_nil_of_le (by omega)]
    rfl
  | succ n ih =>
    obtain ⟨x, hx, hd⟩ := view_drop_cons m s i hs (by omega)
    unfold Stored.stringToIntLoop
    rw [hx, hd]
    simp only [slicex.stringToIntLoop]
    cases ha : Atoi intSize x with
    | mk val err =>
      cases err with
      | some e => rfl
      | none => exact ih (i + 1) _ (by omega)

/-- The store-level `StringToInt` leaves the store and returns `StringToInt` of the
elements. -/
theorem stored_StringToInt_eq (intSize : Nat) (E : IntType) (m : Store GoString)
    (s : SliceHdr) (hs : s.wf m) :
    Stored.StringToInt intSize E m s = (m, slicex.StringToInt intSize E (view m s)) := by
  unfold Stored.StringToInt slicex.StringToInt
  rw [stored_stringToIntLoop_eq intSize E s s.len 0 m [] hs (by omega), List.drop_zero]

theorem stored_longToInt64Loop_eq (s : SliceHdr) (n i : Nat) (m : Store (Option Long))
    (rs : List Int) (hs : s.wf m) (hin : i + n = s.len) :
    Stored.longToInt64Loop s n i m rs
      = (m, slicex.longToInt64Loop ((view m s).drop i) rs) := by
  induction n generalizing i rs with
  | zero =>
    have hl := length_view m s hs
    rw [List.drop_eq_nil_of_le (by omega)]
    rfl
  | succ n ih =>
    obtain ⟨x, hx, hd⟩ := view_drop_cons m s i hs (by omega)
    unfold Stored.longToInt64Loop
    rw [hx, hd]
    cases x with
    | none =>
      simp only [slicex.longToInt64Loop]
      exact ih (i + 1) _ (by omega)
    | some l =>
      simp only [slicex.longToInt64Loop]
      exact ih (i + 1) _ (by omega)

/-- The store-level `LongToInt64` leaves the store and returns `LongToInt64` of the
elements. -/
theorem stored_LongToInt64_eq (m : Store (Option Long)) (s : SliceHdr) (hs : s.wf m) :
    Stored.LongToInt64 m s = (m, slicex.LongToInt64 (view m s)) := by
  unfold Stored.LongToInt64 slicex.LongToInt64
  rw [stored_longToInt64Loop_eq s s.len 0 m [] hs (by omega), List.drop_zero]

/-! ## The operations over the store compute the functions on the elements -/

theorem stored_distinctLoop_view {E : Type} [DecidableEq E] (s : SliceHdr) (n i : Nat)
    (m : Store E) (mp : KeySet E) (res : SliceHdr) (hs : s.wf m) (hw : res.wf m)
    (hres : res.len = res.cap) (hin : i + n = s.len) :
    (Stored.distinctLoop s n i m mp res).2.wf (Stored.distinctLoop s n i m mp res).1 ∧
      (Stored.distinctLoop s n i m mp res).2.len = (Stored.distinctLoop s n i m mp res).2.cap ∧
      view (Stored.distinctLoop s n i m mp res).1 (Stored.distinctLoop s n i m mp res).2
        = slicex.distinctLoop ((view m s).drop i) mp (view m res) := by
  induction n generalizing i m mp res with
  | zero =>
    have hl := length_view m s hs
    rw [List.drop_eq_nil_of_le (by omega)]
    exact ⟨hw, hres, rfl⟩
  | succ n ih =>
    obtain ⟨v, hv, hd⟩ := view_drop_cons m s i hs (by omega)
    unfold Stored.distinctLoop
    rw [hv, hd]
    simp only [slicex.distinctLoop]
    by_cases hf : mp.found v = true
    · simp only [hf, Bool.not_true, Bool.false_eq_true, if_false]
      exact ih (i + 1) m mp res hs hw hres (by omega)
    · simp only [hf, Bool.not_false, if_true]
      have hu := appendVal_unchanged m res s v hres hs
      have hr := appendVal_result m res v hres hw
      have := ih (i + 1) (appendVal m res v).1 (mp.store v) (appendVal m res v).2 hu.1 hr.1
        hr.2.1 (by omega)
      rw [hu.2, hr.2.2] at this
      exact this

theorem view_nilSlice {E : Type} (m : Store E) : view m nilSlice = [] := by
  simp [view, nilSlice]

theorem view_of_len_zero {E : Type} (m : Store E) (s : SliceHdr) (h : ¬ s.len > 0) :
    view m s = [] := by
  have : s.len = 0 := by omega
  simp [view, this]

/-- The store-level `Distinct` returns a slice holding `Distinct` of the elements of `s`. -/
theorem stored_Distinct_view {E : Type} [DecidableEq E] (m : Store E) (s : SliceHdr)
    (hs : s.wf m) :
    (Stored.Distinct m s).2.wf (Stored.Distinct m s).1 ∧
      view (Stored.Distinct m s).1 (Stored.Distinct m s).2 = slicex.Distinct (view m s) := by
  have hl := length_view m s hs
  unfold Stored.Distinct slicex.Distinct
  by_cases h : s.len > 0
  · rw [if_pos h, if_pos (by omega)]
    have := stored_distinctLoop_view s s.len 0 m KeySet.empty nilSlice hs (nilSlice_wf m) rfl
      (by omega)
    rw [List.drop_zero, view_nilSlice] at this
    exact ⟨this.1, this.2.2⟩
  · rw [if_neg h, if_neg (by omega)]
    exact ⟨nilSlice_wf m, view_nilSlice m⟩

theorem stored_subtractLoop_view {E : Type} [DecidableEq E] (mp : KeySet E) (s : SliceHdr)
    (n i : Nat) (m : Store E) (res : SliceHdr) (hs : s.wf m) (hw : res.wf m)
    (hres : res.len = res.cap) (hin : i + n = s.len) :
    (Stored.subtractLoop mp s n i m res).2.wf (Stored.subtractLoop mp s n i m res).1 ∧
      (Stored.subtractLoop mp s n i m res).2.len = (Stored.subtractLoop mp s n i m res).2.cap ∧
      view (Stored.subtractLoop mp s n i m res).1 (Stored.subtractLoop mp s n i m res).2
        = slicex.subtractLoop mp ((view m s).drop i) (view m res) := by
  induction n generalizing i m res with
  | zero =>
    have hl := length_view m s hs
    rw [List.drop_eq_nil_of_le (by omega)]
    exact ⟨hw, hres, rfl⟩
  | succ n ih =>
    obtain ⟨v, hv, hd⟩ := view_drop_cons m s i hs (by omega)
    unfold Stored.subtractLoop
    rw [hv, hd]
    simp only [slicex.subtractLoop]
    by_cases hf : mp.found v = true
    · simp only [hf, Bool.not_true, Bool.false_eq_true, if_false]
      exact ih (i + 1) m res hs hw hres (by omega)
    · simp only [hf, Bool.not_false, if_true]
      have hu := appendVal_unchanged m res s v hres hs
      have hr := appendVal_result m res v hres hw
      have := ih (i + 1) (appendVal m res v).1 (appendVal m res v).2 hu.1 hr.1
        hr.2.1 (by omega)
      rw [hu.2, hr.2.2] at this
      exact this

theorem stored_intersectLoop_view {E : Type} [DecidableEq E] (mp : KeySet E) (s : SliceHdr)
    (n i : Nat) (m : Store E) (res : SliceHdr) (hs : s.wf m) (hw : res.wf m)
    (hres : res.len = res.cap) (hin : i + n = s.len) :
    (Stored.intersectLoop mp s n i m res).2.wf (Stored.intersectLoop mp s n i m res).1 ∧
      (Stored.intersectLoop mp s n i m res).2.len
        = (Stored.intersectLoop mp s n i m res).2.cap ∧
      view (Stored.intersectLoop mp s n i m res).1 (Stored.intersectLoop mp s n i m res).2
        = slicex.intersectLoop mp ((view m s).drop i) (view m res) := by
  induction n generalizing i m res with
  | zero =>
    have hl := length_view m s hs
    rw [List.drop_eq_nil_of_le (by omega)]
    exact ⟨hw, hres, rfl⟩
  | succ n ih =>
    obtain ⟨v, hv, hd⟩ := view_drop_cons m s i hs (by omega)
    unfold Stored.intersectLoop
    rw [hv, hd]
    simp only [slicex.intersectLoop]
    by_cases hf : mp.found v = true
    · simp only [hf, if_true]
      have hu := appendVal_unchanged m res s v hres hs
      have hr := appendVal_result m res v hres hw
      have := ih (i + 1) (appendVal m res v).1 (appendVal m res v).2 hu.1 hr.1
        hr.2.1 (by omega)
      rw [hu.2, hr.2.2] at this
      exact this
    · simp only [hf, Bool.false_eq_true, if_false]
      exact ih (i + 1) m res hs hw hres (by omega)

/-- The store-level `Subtract` returns a slice holding `Subtract` of the elements. -/
theorem stored_Subtract_view {E : Type} [DecidableEq E] (m : Store E) (s1 s2 : SliceHdr)
    (h1 : s1.wf m) :
    view (Stored.Subtract m s1 s2).1 (Stored.Subtract m s1 s2).2
      = slicex.Subtract (view m s1) (view m s2) := by
  have hl := length_view m s1 h1
  unfold Stored.Subtract slicex.Subtract
  by_cases h : s1.len > 0
  · rw [if_pos h, if_pos (by omega)]
    have := stored_subtractLoop_view (fillLoop (view m s2) KeySet.empty) s1 s1.len 0 m
      nilSlice h1 (nilSlice_wf m) rfl (by omega)
    rw [List.drop_zero, view_nilSlice] at this
    exact this.2.2
  · rw [if_neg h, if_neg (by omega)]
    exact view_nilSlice m

/-- The store-level `Intersect` returns a slice holding `Intersect` of the elements. -/
theorem stored_Intersect_view {E : Type} [DecidableEq E] (m : Store E) (s1 s2 : SliceHdr)
    (h1 : s1.wf m) (h2 : s2.wf m) :
    view (Stored.Intersect m s1 s2).1 (Stored.Intersect m s1 s2).2
      = slicex.Intersect (view m s1) (view m s2) := by
  have hl1 := length_view m s1 h1
  have hl2 := length_view m s2 h2
  unfold Stored.Intersect slicex.Intersect
  by_cases h : s1.len > 0 ∧ s2.len > 0
  · rw [if_pos h, if_pos (by omega)]
    have := stored_intersectLoop_view (fillLoop (view m s2) KeySet.empty) s1 s1.len 0 m
      nilSlice h1 (nilSlice_wf m) rfl (by omega)
    rw [List.drop_zero, view_nilSlice] at this
    rw [(stored_Distinct_view _ _ this.1).2, this.2.2]
  · rw [if_neg h, if_neg (by omega)]
    rw [(stored_Distinct_view m nilSlice (nilSlice_wf m)).2, view_nilSlice]

theorem wf_goAppend_result {E : Type} (m : Store E) (s t : SliceHdr) (hs : s.wf m)
    (ht : t.wf m) : (goAppend m s t).2.wf (goAppend m s t).1 := by
  have hls := length_view m s hs
  have hlt := length_view m t ht
  unfold SliceHdr.wf at hs ht
  unfold goAppend
  split
  · unfold SliceHdr.wf
    simp only
    rw [length_write m _ _ (by omega)]
    omega
  · unfold SliceHdr.wf
    simp only [List.length_append, hls, hlt]
    omega

/-- The store-level `Union` leaves the store and returns the elements that `Union` gives. -/
theorem stored_Union_view {E : Type} [DecidableEq E] (m : Store E) (s1 s2 : SliceHdr)
    (h1 : s1.wf m) (h2 : s2.wf m) :
    view (Stored.Union m s1 s2).1 (Stored.Union m s1 s2).2 = (slicex.Union m s1 s2).2 := by
  unfold Stored.Union slicex.Union
  exact (stored_Distinct_view _ _ (wf_goAppend_result m s1 s2 h1 h2)).2

/-! ## Which operations leave their inputs unchanged -/

/-- C7, counterexample: `EqualIgnoreOrder([3,1,2], [1,2,3])` leaves `[1,2,3]` in its first
argument, which held `[3,1,2]` before the call. -/
theorem EqualIgnoreOrder_changes_input :
    view [(3 : Int), 1, 2, 1, 2, 3] ⟨0, 3, 3⟩ = [3, 1, 2] ∧
      view (EqualIgnoreOrder [(3 : Int), 1, 2, 1, 2, 3] ⟨0, 3, 3⟩ ⟨3, 3, 3⟩).1 ⟨0, 3, 3⟩
        = [1, 2, 3] ∧
      view (EqualIgnoreOrder [(3 : Int), 1, 2, 1, 2, 3] ⟨0, 3, 3⟩ ⟨3, 3, 3⟩).1 ⟨0, 3, 3⟩
        ≠ view [(3 : Int), 1, 2, 1, 2, 3] ⟨0, 3, 3⟩ := by
  decide

/-- Aliasing: `Union` changes the elements of `s2` when `s2` overlaps the cells after `s1`
that `append` writes: with `a = [1,2,3,4]`, `Union(a[:1], a[:2])` leaves `[1,1]` in
`a[:2]`. -/
theorem Union_changes_overlapping_input :
    view [1, 2, 3, 4] ⟨0, 2, 4⟩ = [1, 2] ∧
      view (Union [1, 2, 3, 4] ⟨0, 1, 4⟩ ⟨0, 2, 4⟩).1 ⟨0, 2, 4⟩ = [1, 1] ∧
      view (Stored.Union [1, 2, 3, 4] ⟨0, 1, 4⟩ ⟨0, 2, 4⟩).1 ⟨0, 2, 4⟩ = [1, 1] := by
  decide

/-- A callback that stores into the slice changes it: `IndexFunc(s, f)` on `s = [5,7,7]`
with `f` setting `s[0] = 99` and returning false leaves `[99,7,7]` in `s`. -/
theorem IndexFunc_callback_changes_input :
    Stored.IndexFunc id (fun _ m => (false, write m 0 [99])) [5, 7, 7] ⟨0, 3, 3⟩
      = ([99, 7, 7], -1) := by
  decide

/-- C7, amended: every operation other than `Delete` and `EqualIgnoreOrder` leaves each of
its input slices a slice of the store with the elements it had before the call. For
`IndexFunc` and `EqualFunc` this is under the proviso that every call of the callback does
so, for `Int64ToLong` that `json.NewLongSlice` does so, and for the second input of `Union`
that `append` reallocates, or `s2` begins at the cell after `s1`, or `s2` does not overlap
the cells that `append` writes after `s1`. -/
theorem inputs_unchanged :
    (∀ (E : Type) (m : Store E) (s : SliceHdr), s.wf m →
        Unchanged m (Stored.Slice m s).1 s) ∧
      (∀ (E : Type) [DecidableEq E] (m : Store E) (s : SliceHdr) (v : E), s.wf m →
        Unchanged m (Stored.Index m s v).1 s) ∧
      (∀ (σ E : Type) (get : σ → Store E) (f : E → σ → Bool × σ) (st : σ) (s : SliceHdr),
        (∀ x st', s.wf (get st') → Unchanged (get st') (get (f x st').2) s) →
        s.wf (get st) → Unchanged (get st) (get (Stored.IndexFunc get f st s).1) s) ∧
      (∀ (E : Type) [DecidableEq E] (m : Store E) (s : SliceHdr) (v : E), s.wf m →
        Unchanged m (Stored.Contains m s v).1 s) ∧
      (∀ (E : Type) [DecidableEq E] (m : Store E) (s1 s2 : SliceHdr), s1.wf m → s2.wf m →
        Unchanged m (Stored.Equal m s1 s2).1 s1 ∧ Unchanged m (Stored.Equal m s1 s2).1 s2) ∧
      (∀ (σ E1 E2 : Type) (get1 : σ → Store E1) (get2 : σ → Store E2)
          (eq : E1 → E2 → σ → Bool × σ) (st : σ) (s1 s2 : SliceHdr),
        (∀ x y st', s1.wf (get1 st') → Unchanged (get1 st') (get1 (eq x y st').2) s1) →
        (∀ x y st', s2.wf (get2 st') → Unchanged (get2 st') (get2 (eq x y st').2) s2) →
        s1.wf (get1 st) → s2.wf (get2 st) →
        Unchanged (get1 st) (get1 (Stored.EqualFunc get1 get2 eq st s1 s2).1) s1 ∧
          Unchanged (get2 st) (get2 (Stored.EqualFunc get1 get2 eq st s1 s2).1) s2) ∧
      (∀ (E : Type) [DecidableEq E] (m : Store E) (s : SliceHdr), s.wf m →
        Unchanged m (Stored.Distinct m s).1 s) ∧
      (∀ (E : Type) [DecidableEq E] (m : Store E) (s1 s2 : SliceHdr), s1.wf m → s2.wf m →
        Unchanged m (Stored.Subtract m s1 s2).1 s1 ∧
          Unchanged m (Stored.Subtract m s1 s2).1 s2) ∧
      (∀ (E : Type) [DecidableEq E] (m : Store E) (s1 s2 : SliceHdr), s1.wf m → s2.wf m →
        Unchanged m (Stored.Intersect m s1 s2).1 s1 ∧
          Unchanged m (Stored.Intersect m s1 s2).1 s2) ∧
      (∀ (E : Type) [DecidableEq E] (m : Store E) (s1 s2 : SliceHdr), s1.wf m → s2.wf m →
        Unchanged m (Stored.Union m s1 s2).1 s1 ∧
          ((s1.cap < s1.len + s2.len ∨ s2.ptr = s1.ptr + s1.len ∨
              s2.ptr + s2.len ≤ s1.ptr + s1.len ∨ s1.ptr + s1.len + s2.len ≤ s2.ptr) →
            Unchanged m (Stored.Union m s1 s2).1 s2)) ∧
      (∀ (E : IntType) (m : Store Int) (s : SliceHdr), s.wf m →
        Unchanged m (Stored.Sum E m s).1 s) ∧
      (∀ (m : Store Int) (s : SliceHdr), s.wf m →
        Unchanged m (Stored.IntToString m s).1 s) ∧
      (∀ (intSize : Nat) (E : IntType) (m : Store GoString) (s : SliceHdr), s.wf m →
        Unchanged m (Stored.StringToInt intSize E m s).1 s) ∧
      (∀ (m : Store (Option Long)) (s : SliceHdr), s.wf m →
        Unchanged m (Stored.LongToInt64 m s).1 s) ∧
      (∀ (α : Type) (newLongSlice : Store Int → SliceHdr → Store Int × α) (m : Store Int)
          (s : SliceHdr),
        (∀ m', s.wf m' → Unchanged m' (newLongSlice m' s).1 s) → s.wf m →
        Unchanged m (Stored.Int64ToLong newLongSlice m s).1 s) := by
  refine ⟨?_, ?_, ?_, ?_, ?_, ?_, ?_, ?_, ?_, ?_, ?_, ?_, ?_, ?_, ?_⟩
  · intro E m s h
    exact Unchanged.rfl m s h
  · intro E _ m s v h
    rw [stored_Index_eq m s v h]
    exact Unchanged.rfl m s h
  · intro σ E get f st s hf h
    exact stored_indexFuncLoop_unchanged get f s s hf s.len 0 st h
  · intro E _ m s v h
    unfold Stored.Contains
    rw [stored_Index_eq m s v h]
    exact Unchanged.rfl m s h
  · intro E _ m s1 s2 h1 h2
    rw [stored_Equal_eq m s1 s2 h1 h2]
    exact ⟨Unchanged.rfl m s1 h1, Unchanged.rfl m s2 h2⟩
  · intro σ E1 E2 get1 get2 eq st s1 s2 hf1 hf2 h1 h2
    exact ⟨stored_EqualFunc_unchanged get1 get2 get1 eq s1 s2 s1 hf1 st h1,
      stored_EqualFunc_unchanged get1 get2 get2 eq s1 s2 s2 hf2 st h2⟩
  · intro E _ m s h
    exact stored_Distinct_unchanged m s s h
  · intro E _ m s1 s2 h1 h2
    exact ⟨stored_Subtract_unchanged m s1 s2 s1 h1, stored_Subtract_unchanged m s1 s2 s2 h2⟩
  · intro E _ m s1 s2 h1 h2
    exact ⟨stored_Intersect_unchanged m s1 s2 s1 h1,
      stored_Intersect_unchanged m s1 s2 s2 h2⟩
  · intro E _ m s1 s2 h1 h2
    exact ⟨stored_Union_unchanged_fst m s1 s2 h1 h2,
      fun hd => stored_Union_unchanged_snd m s1 s2 h1 h2 hd⟩
  · intro E m s h
    rw [stored_Sum_eq E m s h]
    exact Unchanged.rfl m s h
  · intro m s h
    rw [stored_IntToString_eq m s h]
    exact Unchanged.rfl m s h
  · intro intSize E m s h
    rw [stored_StringToInt_eq intSize E m s h]
    exact Unchanged.rfl m s h
  · intro m s h
    rw [stored_LongToInt64_eq m s h]
    exact Unchanged.rfl m s h
  · intro α newLongSlice m s hn h
    exact hn m h

/-- Witness for C7 (amended): `Union(s1, s2)` where `s1 = [1,2]` has capacity 4 so that
`append` writes the cells after it in place, first with `s2 = [2,3]` in an array of its
own, then with `s2 = a[2:4]` in the array `a = [1,2,2,3]` of `s1 = a[:2]`. -/
theorem inputs_unchanged_witness :
    (goAppend [(1 : Int), 2, 0, 0, 2, 3] ⟨0, 2, 4⟩ ⟨4, 2, 2⟩
        = ([1, 2, 2, 3, 2, 3], ⟨0, 4, 4⟩)) ∧
      (Unchanged [(1 : Int), 2, 0, 0, 2, 3]
          (Stored.Union [(1 : Int), 2, 0, 0, 2, 3] ⟨0, 2, 4⟩ ⟨4, 2, 2⟩).1 ⟨0, 2, 4⟩ ∧
        Unchanged [(1 : Int), 2, 0, 0, 2, 3]
          (Stored.Union [(1 : Int), 2, 0, 0, 2, 3] ⟨0, 2, 4⟩ ⟨4, 2, 2⟩).1 ⟨4, 2, 2⟩) ∧
      (Unchanged [(1 : Int), 2, 2, 3]
          (Stored.Union [(1 : Int), 2, 2, 3] ⟨0, 2, 4⟩ ⟨2, 2, 2⟩).1 ⟨0, 2, 4⟩ ∧
        Unchanged [(1 : Int), 2, 2, 3]
          (Stored.Union [(1 : Int), 2, 2, 3] ⟨0, 2, 4⟩ ⟨2, 2, 2⟩).1 ⟨2, 2, 2⟩) := by
  obtain ⟨-, -, -, -, -, -, -, -, -, hU, -⟩ := inputs_unchanged
  have ha := hU Int [(1 : Int), 2, 0, 0, 2, 3] ⟨0, 2, 4⟩ ⟨4, 2, 2⟩ (by decide) (by decide)
  have hb := hU Int [(1 : Int), 2, 2, 3] ⟨0, 2, 4⟩ ⟨2, 2, 2⟩ (by decide) (by decide)
  exact ⟨by decide, ⟨ha.1, ha.2 (by decide)⟩, ⟨hb.1, hb.2 (by decide)⟩⟩

end slicex
